import Mathlib

/-!
Verification development for the `aws-encryption-sdk-python` repository.

The repository excerpt contains the high-level facade module
`aws_encryption_sdk/__init__.py` (the `encrypt`, `decrypt` and `stream`
functions) and the unit test `test/unit/test_defaults.py` for the numeric
constants of `aws_encryption_sdk.internal.defaults`.  The streaming message
engine itself (`streaming_client`, `internal.defaults`, the master-key
providers and the codecs) is not part of the excerpt, so it is modelled
here from the specification, as noted on each definition.

Bytes are modelled as natural numbers (`List Nat` for byte strings); the
external authenticated cipher, key-wrapping and signature primitives that
the spec explicitly treats as external collaborators are modelled as
idealized primitives: an involutive keystream cipher and
message-recomputation tags, so that tag verification succeeds exactly on
untampered data.
-/

namespace AwsEncryptionSdk

/-- Modelled from the spec: `aws_encryption_sdk.internal.defaults.MAX_FRAME_COUNT`
(the defaults module is absent from the excerpt; value fixed by §6 of the
spec and asserted by `test/unit/test_defaults.py`). -/
def MAX_FRAME_COUNT : Nat := 2 ^ 32 - 1

/-- Modelled from the spec: `aws_encryption_sdk.internal.defaults.MAX_FRAME_SIZE`. -/
def MAX_FRAME_SIZE : Nat := 2 ^ 31 - 1

/-- Modelled from the spec: `aws_encryption_sdk.internal.defaults.MAX_SINGLE_BLOCK_SIZE`. -/
def MAX_SINGLE_BLOCK_SIZE : Nat := 2 ^ 36 - 32

/-- Modelled from the spec: `aws_encryption_sdk.internal.defaults.MAX_BYTE_ARRAY_SIZE`. -/
def MAX_BYTE_ARRAY_SIZE : Nat := 2 ^ 16 - 1

/-! ### Byte-string utilities -/

/-- Big-endian serialization of a natural number into `n` bytes
(the integer fields of the wire format of §6 are big-endian). -/
def beBytes : Nat → Nat → List Nat
  | 0, _ => []
  | n + 1, v => beBytes n (v / 256) ++ [v % 256]

theorem beBytes_length (n v : Nat) : (beBytes n v).length = n := by
  induction n generalizing v with
  | zero => rfl
  | succ k ih => simp [beBytes, ih]

/-- Big-endian value of a byte string. -/
def bytesVal (l : List Nat) : Nat := l.foldl (fun a b => a * 256 + b) 0

theorem foldl_val_append (l : List Nat) (b a : Nat) :
    (l ++ [b]).foldl (fun a b => a * 256 + b) a =
      l.foldl (fun a b => a * 256 + b) a * 256 + b := by
  induction l generalizing a with
  | nil => rfl
  | cons x xs ih => simp only [List.cons_append, List.foldl_cons]; exact ih (a * 256 + x)

theorem bytesVal_beBytes (n v : Nat) : bytesVal (beBytes n v) = v % 256 ^ n := by
  induction n generalizing v with
  | zero => simp [beBytes, bytesVal, Nat.mod_one]
  | succ k ih =>
      have h : bytesVal (beBytes (k + 1) v) = bytesVal (beBytes k (v / 256)) * 256 + v % 256 := by
        simp only [beBytes, bytesVal]
        exact foldl_val_append (beBytes k (v / 256)) (v % 256) 0
      have hmod : v % (256 * 256 ^ k) = v % 256 + 256 * (v / 256 % 256 ^ k) := Nat.mod_mul
      have hpow : (256 : Nat) ^ (k + 1) = 256 * 256 ^ k := by
        rw [pow_succ]; ring
      rw [h, ih, hpow, hmod]
      ring

theorem beBytes_inj {n v w : Nat} (hv : v < 256 ^ n) (hw : w < 256 ^ n)
    (h : beBytes n v = beBytes n w) : v = w := by
  have h1 := congrArg bytesVal h
  rw [bytesVal_beBytes, bytesVal_beBytes, Nat.mod_eq_of_lt hv, Nat.mod_eq_of_lt hw] at h1
  exact h1

theorem take_len_append {α : Type} (a b : List α) : (a ++ b).take a.length = a := by
  induction a with
  | nil => rfl
  | cons x xs ih => simp [ih]

theorem drop_len_append {α : Type} (a b : List α) : (a ++ b).drop a.length = b := by
  induction a with
  | nil => rfl
  | cons x xs ih => simp [ih]

/-! ### Idealized keystream cipher

The spec composes an existing authenticated cipher (an external collaborator,
§1 and §4.5); it is modelled as an involutive xor keystream applied
byte-by-byte, the keystream byte at offset `i` being `f i`. -/

def xorStream (f : Nat → Nat) : Nat → List Nat → List Nat
  | _, [] => []
  | i, b :: bs => (b ^^^ f i) :: xorStream f (i + 1) bs

theorem xorStream_length (f : Nat → Nat) (i : Nat) (l : List Nat) :
    (xorStream f i l).length = l.length := by
  induction l generalizing i with
  | nil => rfl
  | cons b bs ih => simp [xorStream, ih]

theorem xorStream_involutive (f : Nat → Nat) (i : Nat) (l : List Nat) :
    xorStream f i (xorStream f i l) = l := by
  induction l generalizing i with
  | nil => rfl
  | cons b bs ih =>
      simp only [xorStream, ih]
      congr 1
      rw [Nat.xor_assoc, Nat.xor_self, Nat.xor_zero]

/-! ### Single-byte modifications (bit flips) -/

def modifyAt {α : Type} : List α → Nat → (α → α) → List α
  | [], _, _ => []
  | x :: xs, 0, f => f x :: xs
  | x :: xs, n + 1, f => x :: modifyAt xs n f

theorem modifyAt_length {α : Type} (l : List α) (i : Nat) (f : α → α) :
    (modifyAt l i f).length = l.length := by
  induction l generalizing i with
  | nil => rfl
  | cons x xs ih => cases i <;> simp [modifyAt, ih]

theorem modifyAt_ne {α : Type} (l : List α) (i : Nat) (f : α → α)
    (hi : i < l.length) (hne : ∀ x, f x ≠ x) : modifyAt l i f ≠ l := by
  induction l generalizing i with
  | nil => simp at hi
  | cons x xs ih =>
      cases i with
      | zero =>
          intro h
          exact hne x (by injection h)
      | succ k =>
          intro h
          injection h with h1 h2
          exact ih k (by simpa using hi) h2

/-- Flip bit `bit` of a byte. -/
def flipByte (bit b : Nat) : Nat := b ^^^ 2 ^ bit

theorem flipByte_ne (bit b : Nat) : flipByte bit b ≠ b := by
  intro h
  have h1 : b ^^^ (b ^^^ 2 ^ bit) = b ^^^ b := by rw [flipByte] at h; rw [h]
  rw [← Nat.xor_assoc, Nat.xor_self, Nat.zero_xor] at h1
  exact absurd h1 (Nat.pos_iff_ne_zero.mp (Nat.pos_pow_of_pos bit (by norm_num)))

/-- Flip bit `bit` of the byte at index `i` of a byte string. -/
def flipAt (l : List Nat) (i bit : Nat) : List Nat := modifyAt l i (flipByte bit)

theorem flipAt_length (l : List Nat) (i bit : Nat) : (flipAt l i bit).length = l.length :=
  modifyAt_length l i (flipByte bit)

theorem flipAt_ne (l : List Nat) (i bit : Nat) (hi : i < l.length) : flipAt l i bit ≠ l :=
  modifyAt_ne l i (flipByte bit) hi (flipByte_ne bit)

/-! ### Data model (§3 of the spec)

Modelled from the spec: the engine's data structures
(`aws_encryption_sdk.internal.structures` and the streaming client state)
are absent from the excerpt. -/

/-- Modelled from the spec: one wrapped copy of the data key (§3). -/
structure EncryptedDataKey where
  provider_id : List Nat
  key_id : List Nat
  encrypted_key : List Nat
deriving DecidableEq, Repr

/-- Modelled from the spec: content type of the message body (§3, §6). -/
inductive ContentType
  | nonFramed
  | framed
deriving DecidableEq, Repr

/-- Wire byte of the content type field (§6 layout, `content_type:1`). -/
def ContentType.toByte : ContentType → Nat
  | .nonFramed => 1
  | .framed => 2

/-- Modelled from the spec: the self-describing message header (§3).
The encryption context is kept as the ordered list of serialized
key/value byte strings. -/
structure MessageHeader where
  suite_id : Nat
  message_id : List Nat
  encryption_context : List (List Nat × List Nat)
  encrypted_data_keys : List EncryptedDataKey
  content_type : ContentType
  frame_length : Nat
deriving DecidableEq, Repr

/-- Modelled from the spec: one body frame (§3). -/
structure Frame where
  sequence_number : Nat
  iv : List Nat
  ciphertext : List Nat
  tag : List Nat
  is_final : Bool
deriving DecidableEq, Repr

/-- Modelled from the spec: the NonFramed single-block body (§6 layout). -/
structure Block where
  iv : List Nat
  ciphertext : List Nat
  tag : List Nat
deriving DecidableEq, Repr

/-- Modelled from the spec: the message body, framed or single-block. -/
inductive MessageContent
  | framed (frames : List Frame)
  | nonFramed (block : Block)
deriving DecidableEq, Repr

/-- Modelled from the spec: a complete serialized message, kept structurally:
header fields, header authentication tag, body, and (for signing suites)
the trailer signature (empty list when the suite does not sign). -/
structure Message where
  header : MessageHeader
  headerAuthTag : List Nat
  content : MessageContent
  signature : List Nat
deriving DecidableEq, Repr

/-- Modelled from the spec: the error taxonomy of §7. -/
inductive Err
  | unsupportedSuite
  | masterKeyProvider
  | keyUnwrap
  | headerAuthentication
  | ciphertextAuthentication
  | malformedMessage
  | sizeLimitExceeded
  | signatureVerification
deriving DecidableEq, Repr

/-! ### Header codec (§4.4, §6)

Serialization of the header in the fixed wire order; used as the input of
the header authentication tag.  Every variable-length field carries a
16-bit length prefix, every count field is 16-bit. -/

def VERSION_BYTE : Nat := 1
def TYPE_BYTE : Nat := 128

/-- A 16-bit-length-prefixed byte string (§6: `len:2, bytes`). -/
def encB (b : List Nat) : List Nat := beBytes 2 b.length ++ b

/-- One serialized encryption-context pair (§6: `key_len:2,key | val_len:2,val`). -/
def encPair (kv : List Nat × List Nat) : List Nat := encB kv.1 ++ encB kv.2

/-- One serialized EncryptedDataKey (§6). -/
def encEdk (e : EncryptedDataKey) : List Nat :=
  encB e.provider_id ++ encB e.key_id ++ encB e.encrypted_key

/-- Serialized header bytes, in the fixed order of §6. -/
def encodeHeader (h : MessageHeader) : List Nat :=
  [VERSION_BYTE, TYPE_BYTE] ++ beBytes 2 h.suite_id ++ h.message_id
    ++ beBytes 2 h.encryption_context.length ++ (h.encryption_context.map encPair).flatten
    ++ beBytes 2 h.encrypted_data_keys.length ++ (h.encrypted_data_keys.map encEdk).flatten
    ++ [h.content_type.toByte] ++ beBytes 4 0 ++ beBytes 4 h.frame_length

/-- Bounds that the encoder validates (§4.4: every length prefix is checked
against `MAX_BYTE_ARRAY_SIZE`; counts are 16-bit fields; the message id is
16 random bytes; the frame length is a 32-bit field). -/
def boundedHeader (h : MessageHeader) : Bool :=
  decide (h.suite_id < 65536) && h.message_id.length == 16
    && decide (h.encryption_context.length < 65536)
    && h.encryption_context.all
        (fun kv => decide (kv.1.length ≤ MAX_BYTE_ARRAY_SIZE)
          && decide (kv.2.length ≤ MAX_BYTE_ARRAY_SIZE))
    && decide (h.encrypted_data_keys.length < 65536)
    && h.encrypted_data_keys.all
        (fun e => decide (e.provider_id.length ≤ MAX_BYTE_ARRAY_SIZE)
          && decide (e.key_id.length ≤ MAX_BYTE_ARRAY_SIZE)
          && decide (e.encrypted_key.length ≤ MAX_BYTE_ARRAY_SIZE))
    && decide (h.frame_length < 2 ^ 32)

theorem encB_cancel {a b x y : List Nat} (ha : a.length < 65536) (hb : b.length < 65536)
    (h : encB a ++ x = encB b ++ y) : a = b ∧ x = y := by
  unfold encB at h
  rw [List.append_assoc, List.append_assoc] at h
  have h2 := List.append_inj h (by rw [beBytes_length, beBytes_length])
  obtain ⟨h3, h4⟩ := h2
  have hlen : a.length = b.length := by
    have : (256 : Nat) ^ 2 = 65536 := by norm_num
    exact beBytes_inj (by omega) (by omega) h3
  exact ⟨(List.append_inj h4 hlen).1, (List.append_inj h4 hlen).2⟩

theorem encPairs_cancel :
    ∀ (l₁ l₂ : List (List Nat × List Nat)) (x y : List Nat),
      l₁.length = l₂.length →
      (∀ kv ∈ l₁, kv.1.length < 65536 ∧ kv.2.length < 65536) →
      (∀ kv ∈ l₂, kv.1.length < 65536 ∧ kv.2.length < 65536) →
      (l₁.map encPair).flatten ++ x = (l₂.map encPair).flatten ++ y → l₁ = l₂ ∧ x = y := by
  intro l₁
  induction l₁ with
  | nil =>
      intro l₂ x y hlen _ _ h
      cases l₂ with
      | nil => exact ⟨rfl, by simpa using h⟩
      | cons _ _ => simp at hlen
  | cons kv l ih =>
      intro l₂ x y hlen hb1 hb2 h
      cases l₂ with
      | nil => simp at hlen
      | cons kv2 l2 =>
          simp only [List.map_cons, List.flatten_cons, encPair, List.append_assoc] at h
          have hkv := hb1 kv (by simp)
          have hkv2 := hb2 kv2 (by simp)
          obtain ⟨e1, h1⟩ := encB_cancel hkv.1 hkv2.1 h
          obtain ⟨e2, h2⟩ := encB_cancel hkv.2 hkv2.2 h1
          have := ih l2 x y (by simpa using hlen)
            (fun z hz => hb1 z (by simp [hz])) (fun z hz => hb2 z (by simp [hz])) h2
          refine ⟨?_, this.2⟩
          rw [this.1]
          have : kv = kv2 := Prod.ext e1 e2
          rw [this]

theorem encEdks_cancel :
    ∀ (l₁ l₂ : List EncryptedDataKey) (x y : List Nat),
      l₁.length = l₂.length →
      (∀ e ∈ l₁, e.provider_id.length < 65536 ∧ e.key_id.length < 65536 ∧
        e.encrypted_key.length < 65536) →
      (∀ e ∈ l₂, e.provider_id.length < 65536 ∧ e.key_id.length < 65536 ∧
        e.encrypted_key.length < 65536) →
      (l₁.map encEdk).flatten ++ x = (l₂.map encEdk).flatten ++ y → l₁ = l₂ ∧ x = y := by
  intro l₁
  induction l₁ with
  | nil =>
      intro l₂ x y hlen _ _ h
      cases l₂ with
      | nil => exact ⟨rfl, by simpa using h⟩
      | cons _ _ => simp at hlen
  | cons e l ih =>
      intro l₂ x y hlen hb1 hb2 h
      cases l₂ with
      | nil => simp at hlen
      | cons e2 l2 =>
          simp only [List.map_cons, List.flatten_cons, encEdk, List.append_assoc] at h
          have he := hb1 e (by simp)
          have he2 := hb2 e2 (by simp)
          obtain ⟨q1, h1⟩ := encB_cancel he.1 he2.1 h
          obtain ⟨q2, h2⟩ := encB_cancel he.2.1 he2.2.1 h1
          obtain ⟨q3, h3⟩ := encB_cancel he.2.2 he2.2.2 h2
          have := ih l2 x y (by simpa using hlen)
            (fun z hz => hb1 z (by simp [hz])) (fun z hz => hb2 z (by simp [hz])) h3
          refine ⟨?_, this.2⟩
          rw [this.1]
          have : e = e2 := by cases e; cases e2; simp_all
          rw [this]

theorem contentTypeByte_inj {c₁ c₂ : ContentType} (h : c₁.toByte = c₂.toByte) : c₁ = c₂ := by
  cases c₁ <;> cases c₂ <;> simp_all [ContentType.toByte]

theorem encodeHeader_inj {h₁ h₂ : MessageHeader}
    (hb₁ : boundedHeader h₁ = true) (hb₂ : boundedHeader h₂ = true)
    (h : encodeHeader h₁ = encodeHeader h₂) : h₁ = h₂ := by
  unfold boundedHeader at hb₁ hb₂
  simp only [Bool.and_eq_true, decide_eq_true_eq, beq_iff_eq, List.all_eq_true] at hb₁ hb₂
  obtain ⟨⟨⟨⟨⟨⟨s1, m1⟩, c1⟩, cb1⟩, k1⟩, kb1⟩, f1⟩ := hb₁
  obtain ⟨⟨⟨⟨⟨⟨s2, m2⟩, c2⟩, cb2⟩, k2⟩, kb2⟩, f2⟩ := hb₂
  unfold encodeHeader at h
  simp only [List.append_assoc] at h
  have h := (List.append_inj h rfl).2
  have hsuite := List.append_inj h (by rw [beBytes_length, beBytes_length])
  have esuite : h₁.suite_id = h₂.suite_id := by
    have : (256 : Nat) ^ 2 = 65536 := by norm_num
    exact beBytes_inj (by omega) (by omega) hsuite.1
  have h := hsuite.2
  have hmid := List.append_inj h (by rw [m1, m2])
  have emid : h₁.message_id = h₂.message_id := hmid.1
  have h := hmid.2
  have hcnt := List.append_inj h (by rw [beBytes_length, beBytes_length])
  have ecnt : h₁.encryption_context.length = h₂.encryption_context.length := by
    have : (256 : Nat) ^ 2 = 65536 := by norm_num
    exact beBytes_inj (by omega) (by omega) hcnt.1
  have h := hcnt.2
  have hMBAS : MAX_BYTE_ARRAY_SIZE = 65535 := by norm_num [MAX_BYTE_ARRAY_SIZE]
  have hctx := encPairs_cancel h₁.encryption_context h₂.encryption_context _ _ ecnt
    (fun kv hkv => by have := cb1 kv hkv; omega)
    (fun kv hkv => by have := cb2 kv hkv; omega) h
  have ectx : h₁.encryption_context = h₂.encryption_context := hctx.1
  have h := hctx.2
  have hkcnt := List.append_inj h (by rw [beBytes_length, beBytes_length])
  have ekcnt : h₁.encrypted_data_keys.length = h₂.encrypted_data_keys.length := by
    have : (256 : Nat) ^ 2 = 65536 := by norm_num
    exact beBytes_inj (by omega) (by omega) hkcnt.1
  have h := hkcnt.2
  have hedks := encEdks_cancel h₁.encrypted_data_keys h₂.encrypted_data_keys _ _ ekcnt
    (fun e he => by have := kb1 e he; omega)
    (fun e he => by have := kb2 e he; omega) h
  have eedks : h₁.encrypted_data_keys = h₂.encrypted_data_keys := hedks.1
  have h := hedks.2
  simp only [List.singleton_append, List.cons.injEq] at h
  have ect : h₁.content_type = h₂.content_type := contentTypeByte_inj h.1
  have hres := List.append_cancel_left h.2
  have efl : h₁.frame_length = h₂.frame_length := by
    have : (256 : Nat) ^ 4 = 2 ^ 32 := by norm_num
    exact beBytes_inj (by omega) (by omega) hres
  cases h₁; cases h₂
  simp_all

/-! ### Algorithm suite registry (§4.1)

Modelled from the spec: `aws_encryption_sdk.internal.identifiers.Algorithm`
is absent from the excerpt.  The registry is a static table from the 2-byte
suite id to the suite's properties; the properties the model needs are the
data-key length and whether the suite carries a trailing signature. -/

structure AlgorithmSuite where
  id : Nat
  data_key_len : Nat
  signing : Bool
deriving DecidableEq, Repr

/-- Modelled from the spec: the static suite table (§4.1), ids as in the
AWS Encryption SDK message format. -/
def suiteRegistry : List AlgorithmSuite :=
  [⟨0x0014, 16, false⟩, ⟨0x0046, 24, false⟩, ⟨0x0078, 32, false⟩,
   ⟨0x0114, 16, false⟩, ⟨0x0146, 24, false⟩, ⟨0x0178, 32, false⟩,
   ⟨0x0214, 16, true⟩, ⟨0x0346, 24, true⟩, ⟨0x0378, 32, true⟩]

/-- Modelled from the spec: pure lookup, `UnsupportedSuiteError` for unknown
ids (§4.1). -/
def resolveSuite (id : Nat) : Option AlgorithmSuite :=
  suiteRegistry.find? (fun s => s.id == id)

theorem resolveSuite_mem {id : Nat} {s : AlgorithmSuite} (h : resolveSuite id = some s) :
    s ∈ suiteRegistry := List.mem_of_find?_eq_some h

theorem suiteRegistry_bounds :
    ∀ s ∈ suiteRegistry, s.id < 65536 ∧ 0 < s.data_key_len ∧ s.data_key_len ≤ 32 := by
  decide

theorem resolveSuite_id {id : Nat} {s : AlgorithmSuite} (h : resolveSuite id = some s) :
    s.id = id := by
  have := List.find?_some h
  simpa using this

/-! ### Master keys and the provider protocol (§4.2)

Modelled from the spec: `aws_encryption_sdk.internal.crypto.providers` is
absent from the excerpt.  A master key is one key-wrapping backend; `secret`
is its wrapping-key material and `deny` models a backend that cannot or
will not unwrap (policy denial / transport failure), which per §4.2 fails
with `KeyUnwrapError`.  Wrapping is an involutive keystream cipher plus an
idealized integrity tag (the secret written twice followed by the wrapped
bytes), so unwrapping succeeds exactly with the right secret on an
untampered record. -/

structure MasterKey where
  provider_id : List Nat
  key_id : List Nat
  secret : Nat
  deny : Bool
deriving DecidableEq, Repr

/-- Identity of a master key within a provider collection. -/
def mkIdent (mk : MasterKey) : List Nat × List Nat := (mk.provider_id, mk.key_id)

/-- Keystream of the idealized key-wrapping cipher. -/
def wrapKS (secret : Nat) (i : Nat) : Nat := (secret + i) % 256

/-- Modelled from the spec: `encrypt_data_key` — wrap the data key under this
backend (§4.2). -/
def encryptDataKey (mk : MasterKey) (dk : List Nat) : EncryptedDataKey :=
  let ct := xorStream (wrapKS mk.secret) 0 dk
  { provider_id := mk.provider_id, key_id := mk.key_id,
    encrypted_key := beBytes 2 ct.length ++ ct ++ mk.secret :: mk.secret :: ct }

/-- Modelled from the spec: `decrypt_data_key` — attempt to unwrap one
record with this backend; fails with `KeyUnwrapError` when the backend
cannot or will not unwrap it (§4.2). -/
def decryptDataKeySingle (mk : MasterKey) (edk : EncryptedDataKey) : Except Err (List Nat) :=
  if mk.deny then .error .keyUnwrap
  else
    let w := edk.encrypted_key
    let n := bytesVal (w.take 2)
    let ct := (w.drop 2).take n
    if w = beBytes 2 n ++ ct ++ mk.secret :: mk.secret :: ct then
      .ok (xorStream (wrapKS mk.secret) 0 ct)
    else .error .keyUnwrap

/-- Modelled from the spec: resolve an encrypted-data-key record to a
configured MasterKey by provider id and key id, or report unresolvable
(§3, MasterKeyProvider). -/
def resolveMasterKey (provider : List MasterKey) (edk : EncryptedDataKey) : Option MasterKey :=
  provider.find? (fun mk => mk.provider_id == edk.provider_id && mk.key_id == edk.key_id)

/-- Modelled from the spec: the decrypt aggregation policy (§4.2): iterate
the message's encrypted data keys in header order, attempt each resolvable
entry, stop at the first success; `KeyUnwrapError` is recovered locally by
moving to the next entry, any other backend error aborts; if no entry can
be resolved and decrypted the operation fails with
`MasterKeyProviderError`. -/
def decryptDataKey (provider : List MasterKey) : List EncryptedDataKey → Except Err (List Nat)
  | [] => .error .masterKeyProvider
  | edk :: rest =>
    match resolveMasterKey provider edk with
    | none => decryptDataKey provider rest
    | some mk =>
      match decryptDataKeySingle mk edk with
      | .ok dk => .ok dk
      | .error .keyUnwrap => decryptDataKey provider rest
      | .error e => .error e

theorem decryptDataKeySingle_ok_or_keyUnwrap (mk : MasterKey) (edk : EncryptedDataKey) :
    (∃ dk, decryptDataKeySingle mk edk = .ok dk) ∨
      decryptDataKeySingle mk edk = .error .keyUnwrap := by
  unfold decryptDataKeySingle
  split
  · exact Or.inr rfl
  · dsimp only
    split
    · exact Or.inl ⟨_, rfl⟩
    · exact Or.inr rfl

theorem unwrap_wrap (mk : MasterKey) (dk : List Nat) (hdeny : mk.deny = false)
    (hlen : dk.length < 65536) :
    decryptDataKeySingle mk (encryptDataKey mk dk) = .ok dk := by
  unfold decryptDataKeySingle encryptDataKey
  simp only [hdeny, Bool.false_eq_true, if_false]
  have hct : (xorStream (wrapKS mk.secret) 0 dk).length = dk.length :=
    xorStream_length _ _ _
  have htake2 : ((beBytes 2 (xorStream (wrapKS mk.secret) 0 dk).length
      ++ (xorStream (wrapKS mk.secret) 0 dk
        ++ mk.secret :: mk.secret :: xorStream (wrapKS mk.secret) 0 dk)).take 2)
      = beBytes 2 (xorStream (wrapKS mk.secret) 0 dk).length := by
    have := take_len_append (beBytes 2 (xorStream (wrapKS mk.secret) 0 dk).length)
      (xorStream (wrapKS mk.secret) 0 dk
        ++ mk.secret :: mk.secret :: xorStream (wrapKS mk.secret) 0 dk)
    rwa [beBytes_length] at this
  have hdrop2 : ((beBytes 2 (xorStream (wrapKS mk.secret) 0 dk).length
      ++ (xorStream (wrapKS mk.secret) 0 dk
        ++ mk.secret :: mk.secret :: xorStream (wrapKS mk.secret) 0 dk)).drop 2)
      = xorStream (wrapKS mk.secret) 0 dk
        ++ mk.secret :: mk.secret :: xorStream (wrapKS mk.secret) 0 dk := by
    have := drop_len_append (beBytes 2 (xorStream (wrapKS mk.secret) 0 dk).length)
      (xorStream (wrapKS mk.secret) 0 dk
        ++ mk.secret :: mk.secret :: xorStream (wrapKS mk.secret) 0 dk)
    rwa [beBytes_length] at this
  simp only [List.append_assoc, htake2, hdrop2]
  have hval : bytesVal (beBytes 2 (xorStream (wrapKS mk.secret) 0 dk).length)
      = (xorStream (wrapKS mk.secret) 0 dk).length := by
    rw [bytesVal_beBytes]
    have : (256 : Nat) ^ 2 = 65536 := by norm_num
    rw [this]
    exact Nat.mod_eq_of_lt (by omega)
  rw [hval]
  have htakect : ((xorStream (wrapKS mk.secret) 0 dk
      ++ mk.secret :: mk.secret :: xorStream (wrapKS mk.secret) 0 dk).take
        (xorStream (wrapKS mk.secret) 0 dk).length)
      = xorStream (wrapKS mk.secret) 0 dk :=
    take_len_append _ _
  rw [htakect]
  rw [xorStream_involutive]
  simp

/-! ### Envelope key manager and content cipher (§4.3, §4.5)

Modelled from the spec: the per-message content-encryption key is derived
from the data key by the suite's KDF bound to `message_id`; idealized as
concatenation (injective for a fixed message-id length).  The content
cipher is the idealized keystream cipher of `xorStream`; authentication
tags are idealized as recomputation tags: the keyed material followed by
the authenticated bytes, so verification succeeds exactly on untampered
data encrypted under the same key and nonce. -/

def deriveContentKey (dk mid : List Nat) : List Nat := dk ++ mid

/-- Keystream byte `i` of the content cipher for a key and nonce. -/
def contentKS (ck nonce : List Nat) (i : Nat) : Nat := (bytesVal ck + bytesVal nonce + i) % 256

def cryptBytes (ck nonce l : List Nat) : List Nat := xorStream (contentKS ck nonce) 0 l

theorem cryptBytes_involutive (ck nonce l : List Nat) :
    cryptBytes ck nonce (cryptBytes ck nonce l) = l := xorStream_involutive _ _ _

theorem cryptBytes_length (ck nonce l : List Nat) :
    (cryptBytes ck nonce l).length = l.length := xorStream_length _ _ _

/-- Modelled from the spec: the IV/nonce of frame `n` is deterministically
derived from `message_id` and the sequence number (§3 invariants): the
message id followed by the 4-byte big-endian sequence number. -/
def frameNonce (mid : List Nat) (n : Nat) : List Nat := mid ++ beBytes 4 n

/-- Modelled from the spec: the NonFramed body nonce, derived from the
message id alone (§4.5); frames use sequence numbers from 1 so this never
collides with a frame nonce. -/
def nonFramedNonce (mid : List Nat) : List Nat := mid ++ beBytes 4 0

theorem frameNonce_inj {mid : List Nat} {m n : Nat}
    (hm : m < 2 ^ 32) (hn : n < 2 ^ 32) (h : frameNonce mid m = frameNonce mid n) : m = n := by
  unfold frameNonce at h
  have := List.append_cancel_left h
  have h256 : (256 : Nat) ^ 4 = 2 ^ 32 := by norm_num
  exact beBytes_inj (by omega) (by omega) this

/-- Idealized authentication tag of one body unit under a content key and
nonce. -/
def frameTag (ck nonce ct : List Nat) : List Nat := ck ++ (nonce ++ ct)

theorem frameTag_inj_ct {ck nonce ct ct' : List Nat}
    (h : frameTag ck nonce ct = frameTag ck nonce ct') : ct = ct' :=
  List.append_cancel_left (List.append_cancel_left h)

/-- Idealized header authentication tag: computed with the content key over
all serialized header bytes (§4.4). -/
def headerTag (ck : List Nat) (h : MessageHeader) : List Nat :=
  beBytes 4 ck.length ++ ck ++ encodeHeader h

theorem headerTag_inj {ck₁ ck₂ : List Nat} {h₁ h₂ : MessageHeader}
    (hl₁ : ck₁.length < 2 ^ 32) (hl₂ : ck₂.length < 2 ^ 32)
    (h : headerTag ck₁ h₁ = headerTag ck₂ h₂) :
    ck₁ = ck₂ ∧ encodeHeader h₁ = encodeHeader h₂ := by
  unfold headerTag at h
  rw [List.append_assoc, List.append_assoc] at h
  have h2 := List.append_inj h (by rw [beBytes_length, beBytes_length])
  have hlen : ck₁.length = ck₂.length := by
    have h256 : (256 : Nat) ^ 4 = 2 ^ 32 := by norm_num
    exact beBytes_inj (by omega) (by omega) h2.1
  exact List.append_inj h2.2 hlen

/-! ### Frame body codec (§4.5)

Modelled from the spec: the Frame Body Codec is absent from the excerpt.
Encrypt buffers full `frame_length` chunks and emits them as frames with
increasing sequence numbers from 1; the remaining bytes (possibly zero)
become the final frame.  Decrypt mirrors it, checking the sequence number,
the placement of the final frame and the length of non-final frames
(`MalformedMessageError`) and each frame's tag
(`CiphertextAuthenticationError`). -/

def splitFrames (fl : Nat) (p : List Nat) : List (List Nat) :=
  if _h : 0 < fl ∧ fl ≤ p.length then
    p.take fl :: splitFrames fl (p.drop fl)
  else [p]
termination_by p.length
decreasing_by simp only [List.length_drop]; omega

def mkFrame (ck mid : List Nat) (n : Nat) (fin : Bool) (chunk : List Nat) : Frame :=
  let nonce := frameNonce mid n
  let ct := cryptBytes ck nonce chunk
  { sequence_number := n, iv := nonce, ciphertext := ct,
    tag := frameTag ck nonce ct, is_final := fin }

def buildFrames (ck mid : List Nat) : Nat → List (List Nat) → List Frame
  | _, [] => []
  | n, [c] => [mkFrame ck mid n true c]
  | n, c :: c' :: rest => mkFrame ck mid n false c :: buildFrames ck mid (n + 1) (c' :: rest)

def decryptFrames (ck mid : List Nat) (fl : Nat) : Nat → List Frame → Except Err (List (List Nat))
  | _, [] => .error .malformedMessage
  | n, f :: rest =>
    if f.sequence_number ≠ n then .error .malformedMessage
    else
      let nonce := frameNonce mid n
      if f.is_final then
        if rest ≠ [] then .error .malformedMessage
        else if f.tag ≠ frameTag ck nonce f.ciphertext then .error .ciphertextAuthentication
        else .ok [cryptBytes ck nonce f.ciphertext]
      else
        if f.ciphertext.length ≠ fl then .error .malformedMessage
        else if f.tag ≠ frameTag ck nonce f.ciphertext then .error .ciphertextAuthentication
        else (decryptFrames ck mid fl (n + 1) rest).map
          (fun l => cryptBytes ck nonce f.ciphertext :: l)

/-- Structural well-formedness of a frame sequence read starting at
expected sequence number `n`: sequence numbers strictly increasing by 1,
non-final frames exactly `fl` bytes, exactly one final frame, last. -/
def wellFormedFrames (fl : Nat) : Nat → List Frame → Bool
  | _, [] => false
  | n, f :: rest =>
    f.sequence_number == n &&
      (if f.is_final then rest.isEmpty
       else f.ciphertext.length == fl && wellFormedFrames fl (n + 1) rest)

def mkBlock (ck mid p : List Nat) : Block :=
  let nonce := nonFramedNonce mid
  let ct := cryptBytes ck nonce p
  { iv := nonce, ciphertext := ct, tag := frameTag ck nonce ct }

def decryptBlock (ck mid : List Nat) (blk : Block) : Except Err (List Nat) :=
  let nonce := nonFramedNonce mid
  if blk.tag ≠ frameTag ck nonce blk.ciphertext then .error .ciphertextAuthentication
  else .ok (cryptBytes ck nonce blk.ciphertext)

/-! ### Signature trailer (§4.6)

Modelled from the spec: for signing suites a running digest over every
emitted byte is signed and appended; idealized so that verification
recomputes the digest of the received bytes and compares. -/

def frameBytes (f : Frame) : List Nat :=
  beBytes 4 f.sequence_number ++ f.iv ++ f.ciphertext ++ f.tag

def blockBytes (b : Block) : List Nat :=
  b.iv ++ beBytes 8 b.ciphertext.length ++ b.ciphertext ++ b.tag

def contentBytes : MessageContent → List Nat
  | .framed fs => (fs.map frameBytes).flatten
  | .nonFramed b => blockBytes b

def messageSig (h : MessageHeader) (htag : List Nat) (c : MessageContent) : List Nat :=
  encodeHeader h ++ htag ++ contentBytes c

/-! ### The message engine (§4.5 state machine, modelled from the spec:
`StreamEncryptor.read` / `StreamDecryptor.read` of
`aws_encryption_sdk.streaming_client`, absent from the excerpt) -/

/-- Modelled from the spec: the recognized configuration of one encrypt
operation (§9: explicit configuration structure). -/
structure EncryptConfig where
  masterKeys : List MasterKey
  suite_id : Nat
  content_type : ContentType
  frame_length : Nat
  encryption_context : List (List Nat × List Nat)
deriving DecidableEq, Repr

/-- Size-limit checks performed before any body processing (§4.5, §7). -/
def sizeCheck (cfg : EncryptConfig) (p : List Nat) : Bool :=
  match cfg.content_type with
  | .framed => decide (0 < cfg.frame_length) && decide (cfg.frame_length ≤ MAX_FRAME_SIZE)
  | .nonFramed => decide (p.length ≤ MAX_SINGLE_BLOCK_SIZE)

/-- Validation of every variable-length serialized field against
`MAX_BYTE_ARRAY_SIZE` and of the 16-bit count fields (§3 invariants,
§4.4). -/
def validFieldBounds (cfg : EncryptConfig) : Bool :=
  decide (cfg.encryption_context.length < 65536)
    && cfg.encryption_context.all
        (fun kv => decide (kv.1.length ≤ MAX_BYTE_ARRAY_SIZE)
          && decide (kv.2.length ≤ MAX_BYTE_ARRAY_SIZE))
    && decide (cfg.masterKeys.length < 65536)
    && cfg.masterKeys.all
        (fun mk => decide (mk.provider_id.length ≤ MAX_BYTE_ARRAY_SIZE)
          && decide (mk.key_id.length ≤ MAX_BYTE_ARRAY_SIZE))

/-- Frame length stored in the header: 0 for NonFramed content (§3). -/
def headerFrameLength (cfg : EncryptConfig) : Nat :=
  match cfg.content_type with
  | .framed => cfg.frame_length
  | .nonFramed => 0

def mkHeader (cfg : EncryptConfig) (mid : List Nat) (edks : List EncryptedDataKey) :
    MessageHeader :=
  { suite_id := cfg.suite_id, message_id := mid,
    encryption_context := cfg.encryption_context,
    encrypted_data_keys := edks,
    content_type := cfg.content_type,
    frame_length := headerFrameLength cfg }

/-- The successfully built message of one encrypt operation. -/
def buildMsg (cfg : EncryptConfig) (mid dk p : List Nat) (suite : AlgorithmSuite) : Message :=
  let edks := cfg.masterKeys.map (fun mk => encryptDataKey mk dk)
  let h := mkHeader cfg mid edks
  let ck := deriveContentKey dk mid
  let htag := headerTag ck h
  let content :=
    match cfg.content_type with
    | .framed => MessageContent.framed (buildFrames ck mid 1 (splitFrames cfg.frame_length p))
    | .nonFramed => MessageContent.nonFramed (mkBlock ck mid p)
  let sig := if suite.signing then messageSig h htag content else []
  { header := h, headerAuthTag := htag, content := content, signature := sig }

/-- Modelled from the spec: one whole encrypt operation (§2 data flow,
§4.5): generate/wrap the data key with every configured master key, emit
the authenticated header, the body (framed or single-block) and, for
signing suites, the trailer.  `mid` is the message's 16 random bytes and
`dk` the generated data key, both taken as parameters since the engine
obtains them from the RNG / primary master key. -/
def encryptMessage (cfg : EncryptConfig) (mid dk p : List Nat) : Except Err Message :=
  if sizeCheck cfg p = false then .error .sizeLimitExceeded
  else if validFieldBounds cfg = false then .error .sizeLimitExceeded
  else if mid.length ≠ 16 then .error .malformedMessage
  else
    match resolveSuite cfg.suite_id with
    | none => .error .unsupportedSuite
    | some suite =>
      if dk.length ≠ suite.data_key_len then .error .masterKeyProvider
      else if cfg.masterKeys.isEmpty then .error .masterKeyProvider
      else .ok (buildMsg cfg mid dk p suite)

def decryptContent (ck : List Nat) (h : MessageHeader) : MessageContent → Except Err (List Nat)
  | .framed frames =>
    match h.content_type with
    | .framed => (decryptFrames ck h.message_id h.frame_length 1 frames).map List.flatten
    | .nonFramed => .error .malformedMessage
  | .nonFramed blk =>
    match h.content_type with
    | .nonFramed => decryptBlock ck h.message_id blk
    | .framed => .error .malformedMessage

/-- Modelled from the spec: one whole decrypt operation (§2 data flow,
§4.4–§4.6): resolve the suite, recover the data key through the provider
set, verify the header authentication tag, decrypt and authenticate the
body, and for signing suites verify the trailer last. -/
def decryptMessage (provider : List MasterKey) (msg : Message) : Except Err (List Nat) :=
  match resolveSuite msg.header.suite_id with
  | none => .error .unsupportedSuite
  | some suite =>
    match decryptDataKey provider msg.header.encrypted_data_keys with
    | .error e => .error e
    | .ok dk =>
      if msg.headerAuthTag ≠ headerTag (deriveContentKey dk msg.header.message_id) msg.header
        then .error .headerAuthentication
      else
        match decryptContent (deriveContentKey dk msg.header.message_id) msg.header
            msg.content with
        | .error e => .error e
        | .ok pt =>
          if suite.signing then
            if msg.signature ≠ messageSig msg.header msg.headerAuthTag msg.content then
              .error .signatureVerification
            else .ok pt
          else if msg.signature ≠ [] then .error .malformedMessage
          else .ok pt

/-! ### The facade (`aws_encryption_sdk/__init__.py`, present in the excerpt)

`stream(**kwargs)` pops `mode` from the keyword arguments (a missing key
raises Python's `KeyError` from `kwargs.pop`), lowercases it, looks it up
in `_stream_map` and constructs the matching streaming client from the
remaining keyword arguments; an unknown key raises
`ValueError('Unsupported mode: ...')`. -/

/-- Python-level errors of the facade. -/
inductive PyError
  | keyError (key : String)
  | valueError (msg : String)
deriving DecidableEq, Repr

/-- The keyword arguments of a `stream` call: the optional `mode` entry and
the remaining keyword arguments, which are passed through to the streaming
client construction unchanged. -/
structure StreamKwargs where
  mode : Option String
  rest : List (String × String)
deriving DecidableEq, Repr

/-- The two streaming clients the facade can construct, each carrying the
keyword arguments it was constructed from. -/
inductive StreamClient
  | streamEncryptor (kwargs : List (String × String))
  | streamDecryptor (kwargs : List (String × String))
deriving DecidableEq, Repr

/-- ASCII lowercasing of one character, as Python's `str.lower` does for
ASCII input. -/
def pyLowerChar (c : Char) : Char :=
  if 'A' ≤ c ∧ c ≤ 'Z' then Char.ofNat (c.toNat + 32) else c

/-- ASCII lowercasing of a string (`mode.lower()` in the source). -/
def pyLower (s : String) : String := String.mk (s.data.map pyLowerChar)

/-- The `_stream_map` dictionary of `stream`. -/
def streamMapLookup (m : String) : Option Bool :=
  if m = "e" then some true
  else if m = "encrypt" then some true
  else if m = "d" then some false
  else if m = "decrypt" then some false
  else none

/-- The four keys of `_stream_map`. -/
def supportedModes : List String := ["e", "encrypt", "d", "decrypt"]

theorem streamMapLookup_none_iff (m : String) :
    streamMapLookup m = none ↔ m ∉ supportedModes := by
  unfold streamMapLookup supportedModes
  constructor
  · intro h hm
    simp only [List.mem_cons, List.not_mem_nil, or_false] at hm
    rcases hm with h1 | h1 | h1 | h1 <;> subst h1 <;> simp_all
  · intro hm
    split
    · exact absurd (by simp_all) hm
    · split
      · exact absurd (by simp_all) hm
      · split
        · exact absurd (by simp_all) hm
        · split
          · exact absurd (by simp_all) hm
          · rfl

/-- The `stream` facade function (`aws_encryption_sdk/__init__.py`,
lines 86–131). -/
def stream (kwargs : StreamKwargs) : Except PyError StreamClient :=
  match kwargs.mode with
  | none => .error (.keyError "mode")
  | some m =>
    match streamMapLookup (pyLower m) with
    | some true => .ok (.streamEncryptor kwargs.rest)
    | some false => .ok (.streamDecryptor kwargs.rest)
    | none => .error (.valueError ("Unsupported mode: " ++ m))

/-! ### Correctness lemmas for the frame codec -/

theorem splitFrames_ne_nil (fl : Nat) (p : List Nat) : splitFrames fl p ≠ [] := by
  rw [splitFrames]
  split <;> simp

theorem splitFrames_dropLast_len (fl : Nat) (p : List Nat) :
    ∀ c ∈ (splitFrames fl p).dropLast, c.length = fl := by
  refine splitFrames.induct fl (fun q => ∀ c ∈ (splitFrames fl q).dropLast, c.length = fl) ?_ ?_ p
  · intro q h ih
    rw [splitFrames, dif_pos h]
    intro c hc
    rw [List.dropLast_cons_of_ne_nil (splitFrames_ne_nil fl (q.drop fl))] at hc
    rcases List.mem_cons.mp hc with h1 | h1
    · rw [h1, List.length_take]; omega
    · exact ih c h1
  · intro q h
    rw [splitFrames, dif_neg h]
    simp

theorem splitFrames_flatten (fl : Nat) (p : List Nat) :
    (splitFrames fl p).flatten = p := by
  refine splitFrames.induct fl (fun q => (splitFrames fl q).flatten = q) ?_ ?_ p
  · intro q h ih
    rw [splitFrames, dif_pos h]
    simp only [List.flatten_cons, ih, List.take_append_drop]
  · intro q h
    rw [splitFrames, dif_neg h]
    simp

theorem decryptFrames_buildFrames (ck mid : List Nat) (fl : Nat) :
    ∀ (chunks : List (List Nat)) (n : Nat), chunks ≠ [] →
      (∀ c ∈ chunks.dropLast, c.length = fl) →
      decryptFrames ck mid fl n (buildFrames ck mid n chunks) = .ok chunks := by
  intro chunks
  induction chunks with
  | nil => intro n h _; exact absurd rfl h
  | cons c rest ih =>
      intro n _ hlen
      cases rest with
      | nil =>
          simp [buildFrames, decryptFrames, mkFrame, cryptBytes_involutive]
      | cons c2 rest2 =>
          have hc : c.length = fl := hlen c (by simp)
          have hrec := ih (n + 1) (by simp)
            (fun z hz => hlen z (by rw [List.dropLast_cons₂]; exact List.mem_cons_of_mem c hz))
          simp [buildFrames, decryptFrames, mkFrame, cryptBytes_length, hc,
            cryptBytes_involutive, hrec, Except.map]

/-! ### Correctness lemmas for data-key wrapping and aggregation -/

theorem resolveMasterKey_wrap (dk : List Nat) :
    ∀ (provider : List MasterKey) (mk : MasterKey),
      (provider.map mkIdent).Nodup → mk ∈ provider →
      resolveMasterKey provider (encryptDataKey mk dk) = some mk := by
  intro provider
  induction provider with
  | nil => intro mk _ hin; simp at hin
  | cons q qs ih =>
      intro mk hnd hin
      rw [List.map_cons, List.nodup_cons] at hnd
      cases hq : (q.provider_id == (encryptDataKey mk dk).provider_id
          && q.key_id == (encryptDataKey mk dk).key_id) with
      | true =>
          have hfind : resolveMasterKey (q :: qs) (encryptDataKey mk dk) = some q := by
            rw [resolveMasterKey, List.find?_cons, hq]
          rw [hfind]
          have hids : mkIdent q = mkIdent mk := by
            simp only [encryptDataKey, Bool.and_eq_true, beq_iff_eq] at hq
            simp [mkIdent, hq.1, hq.2]
          rcases List.mem_cons.mp hin with h1 | h1
          · rw [h1]
          · exact absurd (hids ▸ List.mem_map_of_mem mkIdent h1) hnd.1
      | false =>
          have hfind : resolveMasterKey (q :: qs) (encryptDataKey mk dk)
              = resolveMasterKey qs (encryptDataKey mk dk) := by
            rw [resolveMasterKey, List.find?_cons, hq]
            rfl
          rw [hfind]
          have hmk : mk ∈ qs := by
            rcases List.mem_cons.mp hin with h1 | h1
            · subst h1
              have hqt : (mk.provider_id == (encryptDataKey mk dk).provider_id
                  && mk.key_id == (encryptDataKey mk dk).key_id) = true := by
                simp [encryptDataKey]
              rw [hqt] at hq
              exact absurd hq (by simp)
            · exact h1
          exact ih mk hnd.2 hmk

theorem deny_single (mk : MasterKey) (edk : EncryptedDataKey) (hd : mk.deny = true) :
    decryptDataKeySingle mk edk = .error .keyUnwrap := by
  unfold decryptDataKeySingle
  rw [if_pos hd]

theorem decryptDataKey_wraps (dk : List Nat) (hdk : dk.length < 65536)
    (provider : List MasterKey) (hnd : (provider.map mkIdent).Nodup) :
    ∀ (ms : List MasterKey),
      (∀ mk ∈ ms, mk ∈ provider) →
      (∃ mk ∈ ms, mk.deny = false) →
      decryptDataKey provider (ms.map (fun mk => encryptDataKey mk dk)) = .ok dk := by
  intro ms
  induction ms with
  | nil => intro _ hex; simp at hex
  | cons m ms ih =>
      intro hsub hex
      simp only [List.map_cons, decryptDataKey]
      rw [resolveMasterKey_wrap dk provider m hnd (hsub m (by simp))]
      by_cases hd : m.deny = false
      · simp [unwrap_wrap m dk hd hdk]
      · have hdt : m.deny = true := by revert hd; cases m.deny <;> simp
        simp only [deny_single m (encryptDataKey m dk) hdt]
        apply ih (fun z hz => hsub z (by simp [hz]))
        rcases hex with ⟨mk, hmk, hdeny⟩
        rcases List.mem_cons.mp hmk with h1 | h1
        · exact absurd (h1 ▸ hdeny) hd
        · exact ⟨mk, h1, hdeny⟩

theorem decryptDataKey_one_backend (dk : List Nat) (hdk : dk.length < 65536) :
    ∀ (ms : List MasterKey) (mk : MasterKey),
      (ms.map mkIdent).Nodup → mk ∈ ms → mk.deny = false →
      decryptDataKey [mk] (ms.map (fun z => encryptDataKey z dk)) = .ok dk := by
  intro ms
  induction ms with
  | nil => intro mk _ hin; simp at hin
  | cons m ms ih =>
      intro mk hnd hin hdeny
      rw [List.map_cons, List.nodup_cons] at hnd
      simp only [List.map_cons, decryptDataKey]
      rcases List.mem_cons.mp hin with h1 | h1
      · subst h1
        rw [resolveMasterKey_wrap dk [mk] mk (by simp) (by simp)]
        simp [unwrap_wrap mk dk hdeny hdk]
      · have hne : resolveMasterKey [mk] (encryptDataKey m dk) = none := by
          have hids : mkIdent m ≠ mkIdent mk := by
            intro hEq
            exact hnd.1 (hEq ▸ List.mem_map_of_mem mkIdent h1)
          have hnot : ¬(mk.provider_id = m.provider_id ∧ mk.key_id = m.key_id) := by
            intro hc
            exact hids (by simp [mkIdent, hc.1, hc.2])
          have hfalse : (mk.provider_id == (encryptDataKey m dk).provider_id
              && mk.key_id == (encryptDataKey m dk).key_id) = false := by
            simp only [encryptDataKey]
            by_cases hp : mk.provider_id = m.provider_id
            · have hk : mk.key_id ≠ m.key_id := fun hk => hnot ⟨hp, hk⟩
              simp [hp, hk]
            · simp [hp]
          rw [resolveMasterKey, List.find?_cons, hfalse]
          rfl
        rw [hne]
        exact ih mk hnd.2 h1 hdeny

/-- The spec's words for the decrypt aggregation (§4.2): attempt one
encrypted-data-key record against the provider set: resolve it to a
MasterKey and try that backend, `none` when it is unresolvable or the
unwrap fails. -/
def attemptUnwrap (provider : List MasterKey) (edk : EncryptedDataKey) : Option (List Nat) :=
  (resolveMasterKey provider edk).bind (fun mk => (decryptDataKeySingle mk edk).toOption)

/-- The spec's words for the decrypt aggregation (§4.2): the first
encrypted-data-key entry, in header order, whose attempt succeeds. -/
def firstUnwrap (provider : List MasterKey) (edks : List EncryptedDataKey) : Option (List Nat) :=
  edks.findSome? (attemptUnwrap provider)

/-! ### Frame metadata lemmas -/

theorem buildFrames_iv_det (ck mid : List Nat) :
    ∀ (chunks : List (List Nat)) (n : Nat) (f : Frame),
      f ∈ buildFrames ck mid n chunks → f.iv = frameNonce mid f.sequence_number := by
  intro chunks
  induction chunks with
  | nil => intro n f hf; simp [buildFrames] at hf
  | cons c rest ih =>
      intro n f hf
      cases rest with
      | nil =>
          simp only [buildFrames, List.mem_singleton] at hf
          rw [hf]
          rfl
      | cons c2 r2 =>
          rw [buildFrames] at hf
          rcases List.mem_cons.mp hf with h1 | h1
          · rw [h1]
            rfl
          · exact ih (n + 1) f h1

theorem buildFrames_map_iv (ck mid : List Nat) :
    ∀ (chunks : List (List Nat)) (n : Nat),
      (buildFrames ck mid n chunks).map Frame.iv
        = (List.range chunks.length).map (fun i => frameNonce mid (n + i)) := by
  intro chunks
  induction chunks with
  | nil => intro n; rfl
  | cons c rest ih =>
      intro n
      cases rest with
      | nil => simp [buildFrames, mkFrame, List.range_succ]
      | cons c2 r2 =>
          rw [buildFrames, List.map_cons, ih (n + 1)]
          conv_rhs => rw [show (c :: c2 :: r2).length = (c2 :: r2).length + 1 from rfl,
            List.range_succ_eq_map, List.map_cons, List.map_map]
          congr 1
          apply List.map_congr_left
          intro a _
          have harith : n + 1 + a = n + Nat.succ a := by omega
          simp [Function.comp, harith]

/-! ### Inversion of a successful encrypt, and decryption of its output -/

theorem encryptMessage_ok_iff (cfg : EncryptConfig) (mid dk p : List Nat) (msg : Message) :
    encryptMessage cfg mid dk p = .ok msg ↔
      sizeCheck cfg p = true ∧ validFieldBounds cfg = true ∧ mid.length = 16 ∧
        ∃ suite, resolveSuite cfg.suite_id = some suite ∧ dk.length = suite.data_key_len ∧
          cfg.masterKeys.isEmpty = false ∧ msg = buildMsg cfg mid dk p suite := by
  unfold encryptMessage
  split
  · rename_i hs
    simp [hs]
  · rename_i hs
    have hst : sizeCheck cfg p = true := by revert hs; cases sizeCheck cfg p <;> simp
    split
    · rename_i hv
      simp [hv]
    · rename_i hv
      have hvt : validFieldBounds cfg = true := by revert hv; cases validFieldBounds cfg <;> simp
      split
      · rename_i hmid
        simp [hst, hvt, hmid]
      · rename_i hmid
        split
        · rename_i hresn
          simp [hst, hvt, hmid, hresn]
        · rename_i suite hress
          split
          · rename_i hdk
            simp only [hst, hvt, hress, true_and, Option.some.injEq]
            constructor
            · intro hc
              simp at hc
            · rintro ⟨_, ⟨s, hse, hdke, _, _⟩⟩
              exact absurd (hse ▸ hdke) hdk
          · rename_i hdk
            split
            · rename_i hemp
              simp only [hst, hvt, hress, true_and, Option.some.injEq]
              constructor
              · intro hc
                simp at hc
              · rintro ⟨_, ⟨s, hse, _, hempf, _⟩⟩
                exact absurd hemp (by simp [hempf])
            · rename_i hemp
              have hmid2 : mid.length = 16 := by omega
              simp only [hst, hvt, hress, hmid2, true_and, Option.some.injEq,
                Except.ok.injEq]
              constructor
              · intro hmsg
                refine ⟨suite, rfl, by omega, ?_, hmsg.symm⟩
                revert hemp
                cases cfg.masterKeys.isEmpty <;> simp
              · rintro ⟨s, hse, _, _, hmsg⟩
                rw [hse, hmsg]
theorem buildMsg_boundedHeader {cfg : EncryptConfig} {mid dk p : List Nat}
    {suite : AlgorithmSuite}
    (hs : sizeCheck cfg p = true) (hv : validFieldBounds cfg = true)
    (hmid : mid.length = 16) (hres : resolveSuite cfg.suite_id = some suite)
    (hdk : dk.length = suite.data_key_len) :
    boundedHeader (buildMsg cfg mid dk p suite).header = true := by
  have hreg := suiteRegistry_bounds _ (resolveSuite_mem hres)
  have hid := resolveSuite_id hres
  unfold validFieldBounds at hv
  simp only [Bool.and_eq_true, decide_eq_true_eq, List.all_eq_true] at hv
  obtain ⟨⟨⟨hc1, hc2⟩, hk1⟩, hk2⟩ := hv
  unfold boundedHeader
  simp only [buildMsg, mkHeader, Bool.and_eq_true, decide_eq_true_eq, beq_iff_eq,
    List.all_eq_true]
  refine ⟨⟨⟨⟨⟨⟨?_, ?_⟩, ?_⟩, ?_⟩, ?_⟩, ?_⟩, ?_⟩
  · rw [← hid]; exact hreg.1
  · exact hmid
  · exact hc1
  · exact hc2
  · rw [List.length_map]; exact hk1
  · intro e he
    rcases List.mem_map.mp he with ⟨mk, hmk, rfl⟩
    have hb := hk2 mk hmk
    refine ⟨⟨by simpa [encryptDataKey] using hb.1, by simpa [encryptDataKey] using hb.2⟩, ?_⟩
    have hlen : (encryptDataKey mk dk).encrypted_key.length = 2 * dk.length + 4 := by
      simp [encryptDataKey, beBytes_length, xorStream_length]
      omega
    rw [hlen]
    have : suite.data_key_len ≤ 32 := hreg.2.2
    have hM : MAX_BYTE_ARRAY_SIZE = 65535 := by norm_num [MAX_BYTE_ARRAY_SIZE]
    omega
  · cases hctt : cfg.content_type with
    | framed =>
        have hs2 := hs
        unfold sizeCheck at hs2
        rw [hctt] at hs2
        simp only [Bool.and_eq_true, decide_eq_true_eq] at hs2
        have hM : MAX_FRAME_SIZE = 2 ^ 31 - 1 := rfl
        simp only [headerFrameLength, hctt]
        omega
    | nonFramed =>
        simp [headerFrameLength, hctt]

theorem deriveContentKey_len_lt (dk mid : List Nat) (hdk : dk.length ≤ 32)
    (hmid : mid.length = 16) : (deriveContentKey dk mid).length < 2 ^ 32 := by
  simp only [deriveContentKey, List.length_append]
  omega

theorem decryptContent_buildMsg (cfg : EncryptConfig) (mid dk p : List Nat)
    (suite : AlgorithmSuite) :
    decryptContent (deriveContentKey dk mid)
      (buildMsg cfg mid dk p suite).header (buildMsg cfg mid dk p suite).content = .ok p := by
  have hmid2 : (buildMsg cfg mid dk p suite).header.message_id = mid := rfl
  cases hctt : cfg.content_type with
    | framed =>
        have hct2 : (buildMsg cfg mid dk p suite).header.content_type = ContentType.framed := by
          simp [buildMsg, mkHeader, hctt]
        have hcon : (buildMsg cfg mid dk p suite).content
            = MessageContent.framed (buildFrames (deriveContentKey dk mid) mid 1
                (splitFrames cfg.frame_length p)) := by
          simp [buildMsg, hctt]
        have hfl : (buildMsg cfg mid dk p suite).header.frame_length = cfg.frame_length := by
          simp [buildMsg, mkHeader, headerFrameLength, hctt]
        rw [hcon]
        unfold decryptContent
        rw [hct2, hmid2, hfl]
        show Except.map List.flatten (decryptFrames (deriveContentKey dk mid) mid
          cfg.frame_length 1 (buildFrames (deriveContentKey dk mid) mid 1
            (splitFrames cfg.frame_length p))) = Except.ok p
        rw [decryptFrames_buildFrames (deriveContentKey dk mid) mid cfg.frame_length
          (splitFrames cfg.frame_length p) 1 (splitFrames_ne_nil _ _)
          (splitFrames_dropLast_len _ _)]
        simp [Except.map, splitFrames_flatten]
    | nonFramed =>
        have hct2 : (buildMsg cfg mid dk p suite).header.content_type
            = ContentType.nonFramed := by
          simp [buildMsg, mkHeader, hctt]
        have hcon : (buildMsg cfg mid dk p suite).content
            = MessageContent.nonFramed (mkBlock (deriveContentKey dk mid) mid p) := by
          simp [buildMsg, hctt]
        rw [hcon]
        unfold decryptContent
        rw [hct2, hmid2]
        show decryptBlock (deriveContentKey dk mid) mid
          (mkBlock (deriveContentKey dk mid) mid p) = Except.ok p
        unfold decryptBlock mkBlock
        simp [cryptBytes_involutive]

theorem decryptMessage_buildMsg (cfg : EncryptConfig) (mid dk p : List Nat)
    (suite : AlgorithmSuite) (provider : List MasterKey)
    (hres : resolveSuite cfg.suite_id = some suite)
    (hkeys : decryptDataKey provider
        ((buildMsg cfg mid dk p suite).header.encrypted_data_keys) = .ok dk) :
    decryptMessage provider (buildMsg cfg mid dk p suite) = .ok p := by
  have hsuite : resolveSuite (buildMsg cfg mid dk p suite).header.suite_id = some suite := by
    simp only [buildMsg, mkHeader]
    exact hres
  unfold decryptMessage
  rw [hsuite, hkeys]
  have hmid2 : (buildMsg cfg mid dk p suite).header.message_id = mid := rfl
  simp only [hmid2]
  have htag : (buildMsg cfg mid dk p suite).headerAuthTag
      = headerTag (deriveContentKey dk mid) (buildMsg cfg mid dk p suite).header := rfl
  rw [if_neg (fun hc => hc htag)]
  rw [decryptContent_buildMsg cfg mid dk p suite]
  cases hsig : suite.signing with
  | true =>
      have hsg : (buildMsg cfg mid dk p suite).signature
          = messageSig (buildMsg cfg mid dk p suite).header
              (buildMsg cfg mid dk p suite).headerAuthTag
              (buildMsg cfg mid dk p suite).content := by
        simp [buildMsg, hsig, messageSig, mkHeader]
      simp [hsg]
  | false =>
      have hsg : (buildMsg cfg mid dk p suite).signature = [] := by
        simp [buildMsg, hsig]
      simp [hsg]

/-! ### Concrete fixtures used by the claim witnesses -/

def mkA : MasterKey := ⟨[1], [2], 5, false⟩
def mkB : MasterKey := ⟨[3], [4], 7, false⟩
def mid16 : List Nat := List.replicate 16 0
def dk16 : List Nat := List.replicate 16 9
def cfgA : EncryptConfig := ⟨[mkA], 20, ContentType.framed, 2, [([7], [8])]⟩
def cfgAB : EncryptConfig := ⟨[mkA, mkB], 20, ContentType.framed, 2, []⟩

/-! ### Claim theorems -/

/-- C1: for every configuration the engine accepts (any supported suite,
framed or single-block content, plaintext within the applicable size limit
— exactly the inputs on which `encryptMessage` succeeds) and a matching,
functioning key provider, decrypting the output of encrypt returns exactly
the original plaintext: `decrypt (encrypt p) = p`. -/
theorem c1_encrypt_decrypt_roundtrip (cfg : EncryptConfig) (mid dk p : List Nat)
    (hnd : (cfg.masterKeys.map mkIdent).Nodup)
    (hex : ∃ mk ∈ cfg.masterKeys, mk.deny = false)
    (hok : (encryptMessage cfg mid dk p).isOk = true) :
    (encryptMessage cfg mid dk p).bind (fun m => decryptMessage cfg.masterKeys m)
      = .ok p := by
  cases henc : encryptMessage cfg mid dk p with
  | error e => rw [henc] at hok; simp [Except.isOk, Except.toBool] at hok
  | ok msg =>
      rcases (encryptMessage_ok_iff cfg mid dk p msg).mp henc with
        ⟨_, _, _, suite, hres, hdk, _, hmsg⟩
      show decryptMessage cfg.masterKeys msg = .ok p
      rw [hmsg]
      have hreg := suiteRegistry_bounds _ (resolveSuite_mem hres)
      have hdk32 : dk.length < 65536 := by
        have := hreg.2.2
        omega
      refine decryptMessage_buildMsg cfg mid dk p suite cfg.masterKeys hres ?_
      simp only [buildMsg, mkHeader]
      exact decryptDataKey_wraps dk hdk32 cfg.masterKeys hnd cfg.masterKeys
        (fun z hz => hz) hex

theorem c1_roundtrip_witness :
    (cfgA.masterKeys.map mkIdent).Nodup ∧ (∃ mk ∈ cfgA.masterKeys, mk.deny = false) ∧
      (encryptMessage cfgA mid16 dk16 [1, 2, 3]).isOk = true ∧
      (encryptMessage cfgA mid16 dk16 [1, 2, 3]).bind
        (fun m => decryptMessage cfgA.masterKeys m) = .ok [1, 2, 3] :=
  ⟨by decide, by decide, by decide,
    c1_encrypt_decrypt_roundtrip cfgA mid16 dk16 [1, 2, 3] (by decide) (by decide) (by decide)⟩

/-- C5: the named numeric limit constants have exactly the values
`MAX_FRAME_COUNT = 2^32 − 1`, `MAX_FRAME_SIZE = 2^31 − 1`,
`MAX_SINGLE_BLOCK_SIZE = 2^36 − 32` and `MAX_BYTE_ARRAY_SIZE = 2^16 − 1`. -/
theorem c5_limit_constants :
    MAX_FRAME_COUNT = 2 ^ 32 - 1 ∧ MAX_FRAME_SIZE = 2 ^ 31 - 1 ∧
      MAX_SINGLE_BLOCK_SIZE = 2 ^ 36 - 32 ∧ MAX_BYTE_ARRAY_SIZE = 2 ^ 16 - 1 :=
  ⟨rfl, rfl, rfl, rfl⟩

/-- C6: a `stream` call with mode `"encrypt"` returns a StreamEncryptor and
with mode `"decrypt"` a StreamDecryptor, each constructed from the remaining
keyword arguments; every mode string outside the supported set (the
`_stream_map` keys, after lowercasing) raises `ValueError`. -/
theorem c6_stream_mode_dispatch :
    (∀ rest : List (String × String),
        stream ⟨some "encrypt", rest⟩ = .ok (.streamEncryptor rest)) ∧
    (∀ rest : List (String × String),
        stream ⟨some "decrypt", rest⟩ = .ok (.streamDecryptor rest)) ∧
    (∀ (m : String) (rest : List (String × String)), pyLower m ∉ supportedModes →
        stream ⟨some m, rest⟩ = .error (.valueError ("Unsupported mode: " ++ m))) := by
  refine ⟨fun rest => ?_, fun rest => ?_, fun m rest hm => ?_⟩
  · have h1 : streamMapLookup (pyLower "encrypt") = some true := by decide
    simp [stream, h1]
  · have h1 : streamMapLookup (pyLower "decrypt") = some false := by decide
    simp [stream, h1]
  · have h1 : streamMapLookup (pyLower m) = none := (streamMapLookup_none_iff _).mpr hm
    simp [stream, h1]

theorem c6_stream_witness :
    stream ⟨some "encrypt", [("source", "s")]⟩
        = .ok (.streamEncryptor [("source", "s")]) ∧
      stream ⟨some "decrypt", []⟩ = .ok (.streamDecryptor []) ∧
      pyLower "x" ∉ supportedModes ∧
      stream ⟨some "x", []⟩ = .error (.valueError ("Unsupported mode: " ++ "x")) :=
  ⟨c6_stream_mode_dispatch.1 [("source", "s")], c6_stream_mode_dispatch.2.1 [],
    by decide, c6_stream_mode_dispatch.2.2 "x" [] (by decide)⟩

/-- C10: a `stream` call without a `mode` keyword raises `KeyError` (the
key is popped before any validation, so the documented `ValueError` path is
not reached), and the mode string is lowercased before the lookup, so
mixed-case values such as `"Encrypt"` or `"D"` are accepted. -/
theorem c10_stream_pop_and_lowercase :
    (∀ rest : List (String × String),
        stream ⟨none, rest⟩ = .error (.keyError "mode")) ∧
    (∀ rest : List (String × String),
        stream ⟨some "Encrypt", rest⟩ = .ok (.streamEncryptor rest)) ∧
    (∀ rest : List (String × String),
        stream ⟨some "D", rest⟩ = .ok (.streamDecryptor rest)) := by
  refine ⟨fun rest => rfl, fun rest => ?_, fun rest => ?_⟩
  · have h1 : streamMapLookup (pyLower "Encrypt") = some true := by decide
    simp [stream, h1]
  · have h1 : streamMapLookup (pyLower "D") = some false := by decide
    simp [stream, h1]

/-- C4: the decrypt aggregation iterates the message's encrypted-data-key
records in header order, attempting `decrypt_data_key` on each resolvable
entry and stopping at the first successful unwrap — its result is exactly
the first successful attempt; a per-backend `KeyUnwrapError` is recovered
locally by moving to the next entry rather than aborting; when no entry can
be resolved and decrypted, the operation fails with
`MasterKeyProviderError`. -/
theorem c4_decrypt_aggregation (provider : List MasterKey) :
    ∀ edks : List EncryptedDataKey,
      decryptDataKey provider edks =
        match firstUnwrap provider edks with
        | some dk => .ok dk
        | none => .error .masterKeyProvider := by
  intro edks
  induction edks with
  | nil => rfl
  | cons e rest ih =>
      rw [decryptDataKey, firstUnwrap, List.findSome?_cons]
      cases hres : resolveMasterKey provider e with
      | none =>
          have ha : attemptUnwrap provider e = none := by
            simp [attemptUnwrap, hres]
          simp only [hres, ha]
          exact ih
      | some mk =>
          rcases decryptDataKeySingle_ok_or_keyUnwrap mk e with ⟨d, hd⟩ | hd
          · have ha : attemptUnwrap provider e = some d := by
              simp [attemptUnwrap, hres, hd, Except.toOption]
            simp only [hres, hd, ha]
          · have ha : attemptUnwrap provider e = none := by
              simp [attemptUnwrap, hres, hd, Except.toOption]
            simp only [hres, hd, ha]
            exact ih

/-- C9: a framed encrypt request whose `frame_length` exceeds
`MAX_FRAME_SIZE`, and a NonFramed encrypt whose input length exceeds
`MAX_SINGLE_BLOCK_SIZE`, fail with `SizeLimitExceededError`; the size check
is the first check of the operation and the failing operation emits no
ciphertext bytes. -/
theorem c9_size_limits :
    (∀ (cfg : EncryptConfig) (mid dk p : List Nat), cfg.content_type = ContentType.framed →
        MAX_FRAME_SIZE < cfg.frame_length →
        encryptMessage cfg mid dk p = .error .sizeLimitExceeded) ∧
    (∀ (cfg : EncryptConfig) (mid dk p : List Nat), cfg.content_type = ContentType.nonFramed →
        MAX_SINGLE_BLOCK_SIZE < p.length →
        encryptMessage cfg mid dk p = .error .sizeLimitExceeded) := by
  constructor
  · intro cfg mid dk p hct hfl
    have hle : ¬(cfg.frame_length ≤ MAX_FRAME_SIZE) := by omega
    have hs : sizeCheck cfg p = false := by
      unfold sizeCheck
      rw [hct]
      simp [hle]
    unfold encryptMessage
    rw [if_pos hs]
  · intro cfg mid dk p hct hp
    have hle : ¬(p.length ≤ MAX_SINGLE_BLOCK_SIZE) := by omega
    have hs : sizeCheck cfg p = false := by
      unfold sizeCheck
      rw [hct]
      simp [hle]
    unfold encryptMessage
    rw [if_pos hs]

theorem c9_size_limits_witness :
    encryptMessage ⟨[mkA], 20, ContentType.framed, 2 ^ 31, []⟩ mid16 dk16 []
        = .error .sizeLimitExceeded ∧
      encryptMessage ⟨[mkA], 20, ContentType.nonFramed, 0, []⟩ mid16 dk16
          (List.replicate (2 ^ 36 - 31) 0) = .error .sizeLimitExceeded :=
  ⟨c9_size_limits.1 ⟨[mkA], 20, ContentType.framed, 2 ^ 31, []⟩ mid16 dk16 [] rfl
      (by norm_num [MAX_FRAME_SIZE]),
    c9_size_limits.2 ⟨[mkA], 20, ContentType.nonFramed, 0, []⟩ mid16 dk16
      (List.replicate (2 ^ 36 - 31) 0) rfl
      (by rw [List.length_replicate]; norm_num [MAX_SINGLE_BLOCK_SIZE])⟩

/-! ### Malformed frame sequences (C7) -/

theorem decryptFrames_malformed (ck mid : List Nat) (fl : Nat) :
    ∀ (frames : List Frame) (n : Nat),
      (∀ f ∈ frames, f.tag = frameTag ck (frameNonce mid f.sequence_number) f.ciphertext) →
      wellFormedFrames fl n frames = false →
      decryptFrames ck mid fl n frames = .error .malformedMessage := by
  intro frames
  induction frames with
  | nil => intro n _ _; rfl
  | cons f rest ih =>
      intro n htags hwf
      by_cases hseq : f.sequence_number = n
      · have hts : f.tag = frameTag ck (frameNonce mid n) f.ciphertext := by
          have := htags f (by simp)
          rw [hseq] at this
          exact this
        cases hfin : f.is_final with
        | true =>
            have hrest : rest ≠ [] := by
              intro hr
              rw [wellFormedFrames, hseq, hfin] at hwf
              simp [hr] at hwf
            simp [decryptFrames, hseq, hfin, hrest]
        | false =>
            by_cases hlen : f.ciphertext.length = fl
            · have hwfr : wellFormedFrames fl (n + 1) rest = false := by
                rw [wellFormedFrames, hseq, hfin] at hwf
                simpa [hlen] using hwf
              simp [decryptFrames, hseq, hfin, hlen, hts,
                ih (n + 1) (fun z hz => htags z (by simp [hz])) hwfr, Except.map]
            · simp [decryptFrames, hseq, hfin, hlen]
      · simp [decryptFrames, hseq]

/-- The message with its body frames replaced (a crafted ciphertext that
reuses a valid header). -/
def replaceFrames (msg : Message) (frames : List Frame) : Message :=
  { msg with content := MessageContent.framed frames }

theorem decryptMessage_replaceContent (cfg : EncryptConfig) (mid dk p : List Nat)
    (suite : AlgorithmSuite)
    (hres : resolveSuite cfg.suite_id = some suite)
    (hdk : dk.length = suite.data_key_len)
    (hnd : (cfg.masterKeys.map mkIdent).Nodup)
    (hex : ∃ mk ∈ cfg.masterKeys, mk.deny = false)
    (content' : MessageContent) (e : Err)
    (hcon : decryptContent (deriveContentKey dk mid)
        (buildMsg cfg mid dk p suite).header content' = .error e) :
    decryptMessage cfg.masterKeys
      { buildMsg cfg mid dk p suite with content := content' } = .error e := by
  have hreg := suiteRegistry_bounds _ (resolveSuite_mem hres)
  have hdk32 : dk.length < 65536 := by
    have := hreg.2.2
    omega
  have hkeys : decryptDataKey cfg.masterKeys
      ((buildMsg cfg mid dk p suite).header.encrypted_data_keys) = .ok dk := by
    simp only [buildMsg, mkHeader]
    exact decryptDataKey_wraps dk hdk32 cfg.masterKeys hnd cfg.masterKeys
      (fun z hz => hz) hex
  have hsuite : resolveSuite (buildMsg cfg mid dk p suite).header.suite_id = some suite := by
    simp only [buildMsg, mkHeader]
    exact hres
  have hmid2 : (buildMsg cfg mid dk p suite).header.message_id = mid := rfl
  have htag : (buildMsg cfg mid dk p suite).headerAuthTag
      = headerTag (deriveContentKey dk mid) (buildMsg cfg mid dk p suite).header := rfl
  unfold decryptMessage
  rw [show ({ buildMsg cfg mid dk p suite with content := content' } : Message).header
      = (buildMsg cfg mid dk p suite).header from rfl]
  rw [hsuite, hkeys]
  simp only [hmid2]
  rw [show ({ buildMsg cfg mid dk p suite with content := content' } : Message).headerAuthTag
      = (buildMsg cfg mid dk p suite).headerAuthTag from rfl]
  rw [if_neg (fun hc => hc htag)]
  simp only [hcon]

/-- C7: on decrypt, frame sequence numbers must arrive strictly increasing
by 1 from 1: for every crafted ciphertext whose (otherwise authentic) frames
violate the expected structure — a gap such as 1,2,4, a repeat such as
1,1,2, a non-final frame whose length differs from `frame_length`, or any
frame after the frame marked final (equivalently, missing final frame) —
decryption fails with `MalformedMessageError`. -/
theorem c7_frame_ordering (cfg : EncryptConfig) (mid dk p : List Nat)
    (frames : List Frame)
    (hct : cfg.content_type = ContentType.framed)
    (hnd : (cfg.masterKeys.map mkIdent).Nodup)
    (hex : ∃ mk ∈ cfg.masterKeys, mk.deny = false)
    (hok : (encryptMessage cfg mid dk p).isOk = true)
    (htags : ∀ f ∈ frames, f.tag = frameTag (deriveContentKey dk mid)
        (frameNonce mid f.sequence_number) f.ciphertext)
    (hwf : wellFormedFrames cfg.frame_length 1 frames = false) :
    (encryptMessage cfg mid dk p).bind
      (fun m => decryptMessage cfg.masterKeys (replaceFrames m frames))
      = .error .malformedMessage := by
  cases henc : encryptMessage cfg mid dk p with
  | error e => rw [henc] at hok; simp [Except.isOk, Except.toBool] at hok
  | ok msg =>
      rcases (encryptMessage_ok_iff cfg mid dk p msg).mp henc with
        ⟨_, _, _, suite, hres, hdk, _, hmsg⟩
      show decryptMessage cfg.masterKeys (replaceFrames msg frames)
        = .error .malformedMessage
      rw [hmsg]
      apply decryptMessage_replaceContent cfg mid dk p suite hres hdk hnd hex
      have hct2 : (buildMsg cfg mid dk p suite).header.content_type
          = ContentType.framed := by
        simp [buildMsg, mkHeader, hct]
      have hfl : (buildMsg cfg mid dk p suite).header.frame_length = cfg.frame_length := by
        simp [buildMsg, mkHeader, headerFrameLength, hct]
      have hmid2 : (buildMsg cfg mid dk p suite).header.message_id = mid := rfl
      unfold decryptContent
      rw [hct2, hmid2, hfl]
      show Except.map List.flatten (decryptFrames (deriveContentKey dk mid) mid
        cfg.frame_length 1 frames) = .error .malformedMessage
      rw [decryptFrames_malformed (deriveContentKey dk mid) mid cfg.frame_length
        frames 1 htags hwf]
      rfl

def ckA : List Nat := deriveContentKey dk16 mid16

def framesGap : List Frame :=
  [mkFrame ckA mid16 1 false [0, 0], mkFrame ckA mid16 2 false [0, 0],
   mkFrame ckA mid16 4 true [0]]

theorem c7_frame_ordering_witness :
    cfgA.content_type = ContentType.framed ∧
      (cfgA.masterKeys.map mkIdent).Nodup ∧
      (∃ mk ∈ cfgA.masterKeys, mk.deny = false) ∧
      (encryptMessage cfgA mid16 dk16 [1, 2, 3]).isOk = true ∧
      (∀ f ∈ framesGap, f.tag = frameTag (deriveContentKey dk16 mid16)
          (frameNonce mid16 f.sequence_number) f.ciphertext) ∧
      wellFormedFrames cfgA.frame_length 1 framesGap = false ∧
      (encryptMessage cfgA mid16 dk16 [1, 2, 3]).bind
        (fun m => decryptMessage cfgA.masterKeys (replaceFrames m framesGap))
        = .error .malformedMessage :=
  ⟨rfl, by decide, by decide, by decide, by decide, by decide,
    c7_frame_ordering cfgA mid16 dk16 [1, 2, 3] framesGap rfl (by decide) (by decide)
      (by decide) (by decide) (by decide)⟩

/-! ### Frame nonces of an encrypted message (C8) -/

theorem splitFrames_length_le (fl : Nat) (p : List Nat) :
    (splitFrames fl p).length ≤ p.length + 1 := by
  refine splitFrames.induct fl (fun q => (splitFrames fl q).length ≤ q.length + 1) ?_ ?_ p
  · intro q h ih
    rw [splitFrames, dif_pos h]
    simp only [List.length_cons]
    rw [List.length_drop] at ih
    omega
  · intro q h
    rw [splitFrames, dif_neg h]
    simp

def messageFrames (m : Message) : List Frame :=
  match m.content with
  | .framed fs => fs
  | .nonFramed _ => []

/-- Decidable statement of C8 over one message's frames: every frame's IV
is the deterministic nonce of its message id and sequence number, and no
two frames share an IV. -/
def ivCheckB (mid : List Nat) (fs : List Frame) : Bool :=
  fs.all (fun f => f.iv == frameNonce mid f.sequence_number)
    && decide ((fs.map Frame.iv).Nodup)

/-- C8: within one encrypted message the IV of frame `n` is the
deterministic function `frameNonce` of the message id and the frame's
sequence number, and (for any frame count within `MAX_FRAME_COUNT`) all
frames of the message carry pairwise distinct IVs — no nonce reuse. -/
theorem c8_nonce_determinism_distinctness (cfg : EncryptConfig) (mid dk p : List Nat)
    (hct : cfg.content_type = ContentType.framed)
    (hcount : (splitFrames cfg.frame_length p).length ≤ MAX_FRAME_COUNT)
    (hok : (encryptMessage cfg mid dk p).isOk = true) :
    (encryptMessage cfg mid dk p).map
      (fun m => ivCheckB m.header.message_id (messageFrames m)) = .ok true := by
  cases henc : encryptMessage cfg mid dk p with
  | error e => rw [henc] at hok; simp [Except.isOk, Except.toBool] at hok
  | ok msg =>
      rcases (encryptMessage_ok_iff cfg mid dk p msg).mp henc with
        ⟨_, _, _, suite, _, _, _, hmsg⟩
      show Except.ok (ivCheckB msg.header.message_id (messageFrames msg)) = .ok true
      have hmid2 : msg.header.message_id = mid := by rw [hmsg]; rfl
      have hfr : messageFrames msg
          = buildFrames (deriveContentKey dk mid) mid 1 (splitFrames cfg.frame_length p) := by
        rw [hmsg]
        simp [buildMsg, messageFrames, hct]
      rw [hmid2, hfr]
      have hall : (buildFrames (deriveContentKey dk mid) mid 1
          (splitFrames cfg.frame_length p)).all
            (fun f => f.iv == frameNonce mid f.sequence_number) = true := by
        rw [List.all_eq_true]
        intro f hf
        rw [beq_iff_eq]
        exact buildFrames_iv_det (deriveContentKey dk mid) mid _ 1 f hf
      have hnodup : ((buildFrames (deriveContentKey dk mid) mid 1
          (splitFrames cfg.frame_length p)).map Frame.iv).Nodup := by
        rw [buildFrames_map_iv]
        have h32 : (2 : Nat) ^ 32 = 4294967296 := by norm_num
        have hM : MAX_FRAME_COUNT = 4294967295 := by norm_num [MAX_FRAME_COUNT]
        refine List.Nodup.map_on ?_ (List.nodup_range _)
        intro i hi j hj hEq
        rw [List.mem_range] at hi hj
        have hi2 : 1 + i < 2 ^ 32 := by omega
        have hj2 : 1 + j < 2 ^ 32 := by omega
        have := frameNonce_inj hi2 hj2 hEq
        omega
      unfold ivCheckB
      rw [hall, decide_eq_true hnodup]
      rfl

theorem c8_nonce_witness :
    cfgA.content_type = ContentType.framed ∧
      (splitFrames cfgA.frame_length [1, 2, 3]).length ≤ MAX_FRAME_COUNT ∧
      (encryptMessage cfgA mid16 dk16 [1, 2, 3]).isOk = true ∧
      (encryptMessage cfgA mid16 dk16 [1, 2, 3]).map
        (fun m => ivCheckB m.header.message_id (messageFrames m)) = .ok true :=
  ⟨rfl,
    le_trans (splitFrames_length_le cfgA.frame_length [1, 2, 3])
      (by norm_num [MAX_FRAME_COUNT]),
    by decide,
    c8_nonce_determinism_distinctness cfgA mid16 dk16 [1, 2, 3] rfl
      (le_trans (splitFrames_length_le cfgA.frame_length [1, 2, 3])
        (by norm_num [MAX_FRAME_COUNT]))
      (by decide)⟩

/-- C3: an encrypt operation configured with N master keys emits a header
with exactly N `EncryptedDataKey` entries, and each of the N functioning
backends alone suffices to decrypt the message, every one yielding the same
original plaintext. -/
theorem c3_multi_key_recoverability (cfg : EncryptConfig) (mid dk p : List Nat)
    (hnd : (cfg.masterKeys.map mkIdent).Nodup)
    (hok : (encryptMessage cfg mid dk p).isOk = true) :
    (encryptMessage cfg mid dk p).map
        (fun m => m.header.encrypted_data_keys.length) = .ok cfg.masterKeys.length ∧
      ∀ mk ∈ cfg.masterKeys, mk.deny = false →
        (encryptMessage cfg mid dk p).bind (fun m => decryptMessage [mk] m) = .ok p := by
  cases henc : encryptMessage cfg mid dk p with
  | error e => rw [henc] at hok; simp [Except.isOk, Except.toBool] at hok
  | ok msg =>
      rcases (encryptMessage_ok_iff cfg mid dk p msg).mp henc with
        ⟨_, _, _, suite, hres, hdk, _, hmsg⟩
      have hreg := suiteRegistry_bounds _ (resolveSuite_mem hres)
      have hdk32 : dk.length < 65536 := by
        have := hreg.2.2
        omega
      constructor
      · show Except.ok msg.header.encrypted_data_keys.length = .ok cfg.masterKeys.length
        rw [hmsg]
        show Except.ok (cfg.masterKeys.map (fun mk => encryptDataKey mk dk)).length
          = .ok cfg.masterKeys.length
        rw [List.length_map]
      · intro mk hmk hdeny
        show decryptMessage [mk] msg = .ok p
        rw [hmsg]
        refine decryptMessage_buildMsg cfg mid dk p suite [mk] hres ?_
        simp only [buildMsg, mkHeader]
        exact decryptDataKey_one_backend dk hdk32 cfg.masterKeys mk hnd hmk hdeny

theorem c3_multi_key_witness :
    (cfgAB.masterKeys.map mkIdent).Nodup ∧
      (encryptMessage cfgAB mid16 dk16 [5, 6]).isOk = true ∧
      (encryptMessage cfgAB mid16 dk16 [5, 6]).map
        (fun m => m.header.encrypted_data_keys.length) = .ok cfgAB.masterKeys.length ∧
      mkA ∈ cfgAB.masterKeys ∧ mkA.deny = false ∧
      (encryptMessage cfgAB mid16 dk16 [5, 6]).bind
        (fun m => decryptMessage [mkA] m) = .ok [5, 6] ∧
      mkB ∈ cfgAB.masterKeys ∧ mkB.deny = false ∧
      (encryptMessage cfgAB mid16 dk16 [5, 6]).bind
        (fun m => decryptMessage [mkB] m) = .ok [5, 6] :=
  ⟨by decide, by decide,
    (c3_multi_key_recoverability cfgAB mid16 dk16 [5, 6] (by decide) (by decide)).1,
    by decide, by decide,
    (c3_multi_key_recoverability cfgAB mid16 dk16 [5, 6] (by decide) (by decide)).2
      mkA (by decide) (by decide),
    by decide, by decide,
    (c3_multi_key_recoverability cfgAB mid16 dk16 [5, 6] (by decide) (by decide)).2
      mkB (by decide) (by decide)⟩

/-! ### Single-bit tampering of a message (C2) -/

instance : Inhabited Frame := ⟨⟨0, [], [], [], false⟩⟩

/-- One single-bit (or, for the header, arbitrary field-level) modification
of a serialized message, at the positions the spec's tamper-sensitivity
property enumerates: the header, the body ciphertext (a frame's or the
NonFramed block's), any authentication tag (a frame's, the NonFramed
block's, or the header's), or the trailer signature. -/
inductive Tamper
  | replaceHeader (hdr : MessageHeader)
  | headerTagBit (i bit : Nat)
  | frameCiphertextBit (j i bit : Nat)
  | frameTagBit (j i bit : Nat)
  | blockCiphertextBit (i bit : Nat)
  | blockTagBit (i bit : Nat)
  | signatureBit (i bit : Nat)

/-- Applicability of a tamper to a message: indices in range, a header
replacement actually different (and within the serializable bounds). -/
def Tamper.validB : Tamper → Message → Bool
  | .replaceHeader hdr, msg => decide (hdr ≠ msg.header) && boundedHeader hdr
  | .headerTagBit i _, msg => decide (i < msg.headerAuthTag.length)
  | .frameCiphertextBit j i _, msg =>
      match msg.content with
      | .framed fs => decide (j < fs.length)
          && decide (i < (fs.getD j default).ciphertext.length)
      | .nonFramed _ => false
  | .frameTagBit j i _, msg =>
      match msg.content with
      | .framed fs => decide (j < fs.length)
          && decide (i < (fs.getD j default).tag.length)
      | .nonFramed _ => false
  | .blockCiphertextBit i _, msg =>
      match msg.content with
      | .nonFramed b => decide (i < b.ciphertext.length)
      | .framed _ => false
  | .blockTagBit i _, msg =>
      match msg.content with
      | .nonFramed b => decide (i < b.tag.length)
      | .framed _ => false
  | .signatureBit i _, msg => decide (i < msg.signature.length)

def Tamper.apply : Tamper → Message → Message
  | .replaceHeader hdr, msg => { msg with header := hdr }
  | .headerTagBit i bit, msg => { msg with headerAuthTag := flipAt msg.headerAuthTag i bit }
  | .frameCiphertextBit j i bit, msg =>
      match msg.content with
      | .framed fs => { msg with content := MessageContent.framed (modifyAt fs j
          (fun f => { f with ciphertext := flipAt f.ciphertext i bit })) }
      | .nonFramed _ => msg
  | .frameTagBit j i bit, msg =>
      match msg.content with
      | .framed fs => { msg with content := MessageContent.framed (modifyAt fs j
          (fun f => { f with tag := flipAt f.tag i bit })) }
      | .nonFramed _ => msg
  | .blockCiphertextBit i bit, msg =>
      match msg.content with
      | .nonFramed b =>
          { msg with content :=
              MessageContent.nonFramed { b with ciphertext := flipAt b.ciphertext i bit } }
      | .framed _ => msg
  | .blockTagBit i bit, msg =>
      match msg.content with
      | .nonFramed b =>
          { msg with content :=
              MessageContent.nonFramed { b with tag := flipAt b.tag i bit } }
      | .framed _ => msg
  | .signatureBit i bit, msg => { msg with signature := flipAt msg.signature i bit }

/-- The authentication/verification errors of the taxonomy (§7). -/
def isAuthVerificationError (e : Err) : Bool :=
  e == .headerAuthentication || e == .ciphertextAuthentication
    || e == .signatureVerification

/-- The errors a pre-header-authentication failure can surface when the
tampered header region is consulted while recovering the data key. -/
def isKeyOrHeaderError (e : Err) : Bool :=
  e == .unsupportedSuite || e == .masterKeyProvider || e == .headerAuthentication

instance {ε α : Type} [DecidableEq ε] [DecidableEq α] : DecidableEq (Except ε α) := fun x y =>
  match x, y with
  | .ok a, .ok b =>
      if h : a = b then isTrue (by rw [h])
      else isFalse (fun hc => h (by injection hc))
  | .error a, .error b =>
      if h : a = b then isTrue (by rw [h])
      else isFalse (fun hc => h (by injection hc))
  | .ok _, .error _ => isFalse (fun hc => Except.noConfusion hc)
  | .error _, .ok _ => isFalse (fun hc => Except.noConfusion hc)

/-- The amended outcome of decrypting a tampered message: always a failure,
with the precise authentication error for body/tag/signature tampering, and
one of the pre-body failures for header tampering. -/
def tamperOutcomeB (provider : List MasterKey) (msg : Message) : Tamper → Bool
  | .replaceHeader hdr =>
      match decryptMessage provider ((Tamper.replaceHeader hdr).apply msg) with
      | .error e => isKeyOrHeaderError e
      | .ok _ => false
  | .headerTagBit i bit =>
      decide (decryptMessage provider ((Tamper.headerTagBit i bit).apply msg)
        = .error .headerAuthentication)
  | .frameCiphertextBit j i bit =>
      decide (decryptMessage provider ((Tamper.frameCiphertextBit j i bit).apply msg)
        = .error .ciphertextAuthentication)
  | .frameTagBit j i bit =>
      decide (decryptMessage provider ((Tamper.frameTagBit j i bit).apply msg)
        = .error .ciphertextAuthentication)
  | .blockCiphertextBit i bit =>
      decide (decryptMessage provider ((Tamper.blockCiphertextBit i bit).apply msg)
        = .error .ciphertextAuthentication)
  | .blockTagBit i bit =>
      decide (decryptMessage provider ((Tamper.blockTagBit i bit).apply msg)
        = .error .ciphertextAuthentication)
  | .signatureBit i bit =>
      decide (decryptMessage provider ((Tamper.signatureBit i bit).apply msg)
        = .error .signatureVerification)

/-! ### Supporting lemmas for tamper rejection -/

theorem buildFrames_tag_det (ck mid : List Nat) :
    ∀ (chunks : List (List Nat)) (n : Nat) (f : Frame),
      f ∈ buildFrames ck mid n chunks →
      f.tag = frameTag ck (frameNonce mid f.sequence_number) f.ciphertext := by
  intro chunks
  induction chunks with
  | nil => intro n f hf; simp [buildFrames] at hf
  | cons c rest ih =>
      intro n f hf
      cases rest with
      | nil =>
          simp only [buildFrames, List.mem_singleton] at hf
          rw [hf]
          rfl
      | cons c2 r2 =>
          rw [buildFrames] at hf
          rcases List.mem_cons.mp hf with h1 | h1
          · rw [h1]
            rfl
          · exact ih (n + 1) f h1

theorem decryptDataKeySingle_ok_len {mk : MasterKey} {edk : EncryptedDataKey}
    {d : List Nat} (h : decryptDataKeySingle mk edk = .ok d) : d.length < 65536 := by
  unfold decryptDataKeySingle at h
  split at h
  · exact absurd h (by simp)
  · dsimp only at h
    split at h
    · rename_i hEq
      rw [Except.ok.injEq] at h
      have hl : d.length
          = ((edk.encrypted_key.drop 2).take (bytesVal (edk.encrypted_key.take 2))).length := by
        rw [← h, xorStream_length]
      have htk : edk.encrypted_key.take 2
          = beBytes 2 (bytesVal (edk.encrypted_key.take 2)) := by
        conv_lhs => rw [hEq]
        rw [List.append_assoc]
        have := take_len_append
          (beBytes 2 (bytesVal (edk.encrypted_key.take 2)))
          ((edk.encrypted_key.drop 2).take (bytesVal (edk.encrypted_key.take 2))
            ++ mk.secret :: mk.secret ::
              (edk.encrypted_key.drop 2).take (bytesVal (edk.encrypted_key.take 2)))
        rw [beBytes_length] at this
        rw [this]
      have hn : bytesVal (edk.encrypted_key.take 2)
          = bytesVal (edk.encrypted_key.take 2) % 65536 := by
        conv_lhs => rw [htk, bytesVal_beBytes]
        norm_num
      have hn2 : bytesVal (edk.encrypted_key.take 2) < 65536 := by
        rw [hn]
        exact Nat.mod_lt _ (by norm_num)
      rw [hl]
      calc ((edk.encrypted_key.drop 2).take (bytesVal (edk.encrypted_key.take 2))).length
          ≤ bytesVal (edk.encrypted_key.take 2) := by
            rw [List.length_take]
            exact Nat.min_le_left _ _
        _ < 65536 := hn2
    · exact absurd h (by simp)

theorem decryptDataKey_ok_len {provider : List MasterKey} :
    ∀ {edks : List EncryptedDataKey} {d : List Nat},
      decryptDataKey provider edks = .ok d → d.length < 65536 := by
  intro edks
  induction edks with
  | nil => intro d h; exact absurd h (by simp [decryptDataKey])
  | cons e rest ih =>
      intro d h
      rw [decryptDataKey] at h
      cases hres : resolveMasterKey provider e with
      | none =>
          simp only [hres] at h
          exact ih h
      | some mk =>
          simp only [hres] at h
          cases hsingle : decryptDataKeySingle mk e with
          | ok d2 =>
              simp only [hsingle, Except.ok.injEq] at h
              rw [← h]
              exact decryptDataKeySingle_ok_len hsingle
          | error e2 =>
              simp only [hsingle] at h
              cases e2 with
              | keyUnwrap => exact ih h
              | unsupportedSuite => simp at h
              | masterKeyProvider => simp at h
              | headerAuthentication => simp at h
              | ciphertextAuthentication => simp at h
              | malformedMessage => simp at h
              | sizeLimitExceeded => simp at h
              | signatureVerification => simp at h
theorem decryptDataKey_error_eq {provider : List MasterKey} :
    ∀ {edks : List EncryptedDataKey} {e : Err},
      decryptDataKey provider edks = .error e → e = .masterKeyProvider := by
  intro edks
  induction edks with
  | nil =>
      intro e h
      rw [decryptDataKey] at h
      injection h with h
      exact h.symm
  | cons q rest ih =>
      intro e h
      rw [decryptDataKey] at h
      cases hres : resolveMasterKey provider q with
      | none =>
          simp only [hres] at h
          exact ih h
      | some mk =>
          rcases decryptDataKeySingle_ok_or_keyUnwrap mk q with ⟨d, hd⟩ | hd
          · simp only [hres, hd] at h
            simp at h
          · simp only [hres, hd] at h
            exact ih h

theorem decryptMessage_header_mismatch (provider : List MasterKey) (msg : Message)
    (suite : AlgorithmSuite) (dk : List Nat)
    (hsuite : resolveSuite msg.header.suite_id = some suite)
    (hkeys : decryptDataKey provider msg.header.encrypted_data_keys = .ok dk)
    (hne : msg.headerAuthTag
        ≠ headerTag (deriveContentKey dk msg.header.message_id) msg.header) :
    decryptMessage provider msg = .error .headerAuthentication := by
  unfold decryptMessage
  simp only [hsuite, hkeys]
  rw [if_pos hne]

theorem decryptFrames_tamper (ck mid : List Nat) (fl : Nat) (g : Frame → Frame)
    (hseq : ∀ f, (g f).sequence_number = f.sequence_number)
    (hfin : ∀ f, (g f).is_final = f.is_final)
    (hlen : ∀ f, (g f).ciphertext.length = f.ciphertext.length) :
    ∀ (chunks : List (List Nat)) (n j : Nat), chunks ≠ [] →
      (∀ c ∈ chunks.dropLast, c.length = fl) → j < chunks.length →
      (g ((buildFrames ck mid n chunks).getD j default)).tag
          ≠ frameTag ck
              (frameNonce mid ((buildFrames ck mid n chunks).getD j default).sequence_number)
              (g ((buildFrames ck mid n chunks).getD j default)).ciphertext →
      decryptFrames ck mid fl n (modifyAt (buildFrames ck mid n chunks) j g)
        = .error .ciphertextAuthentication := by
  intro chunks
  induction chunks with
  | nil => intro n j h; exact absurd rfl h
  | cons c rest ih =>
      intro n j _ hdl hj hbad
      cases rest with
      | nil =>
          cases j with
          | succ j2 =>
              rw [List.length_singleton] at hj
              exact absurd hj (by omega)
          | zero =>
              have hb2 : (g (mkFrame ck mid n true c)).tag
                  ≠ frameTag ck (frameNonce mid (mkFrame ck mid n true c).sequence_number)
                      (g (mkFrame ck mid n true c)).ciphertext := hbad
              simp only [buildFrames, modifyAt, decryptFrames, hseq, hfin, mkFrame]
              simp
              exact hb2
      | cons c2 r2 =>
          cases j with
          | zero =>
              have hc : c.length = fl := hdl c (by simp)
              have hb2 : (g (mkFrame ck mid n false c)).tag
                  ≠ frameTag ck (frameNonce mid (mkFrame ck mid n false c).sequence_number)
                      (g (mkFrame ck mid n false c)).ciphertext := hbad
              simp [buildFrames, modifyAt, decryptFrames, hseq, hfin, hlen, mkFrame,
                cryptBytes_length, hc]
              intro hEq
              exact absurd hEq hb2
          | succ j2 =>
              have hc : c.length = fl := hdl c (by simp)
              have hrec := ih (n + 1) j2 (by simp)
                (fun z hz => hdl z (by rw [List.dropLast_cons₂]; exact List.mem_cons_of_mem c hz))
                (by simpa using hj) hbad
              simp [buildFrames, modifyAt, decryptFrames, mkFrame, cryptBytes_length, hc,
                hrec, Except.map]
theorem getD_mem {α : Type} [Inhabited α] :
    ∀ (l : List α) (j : Nat), j < l.length → l.getD j default ∈ l := by
  intro l
  induction l with
  | nil => intro j hj; simp at hj
  | cons x xs ih =>
      intro j hj
      cases j with
      | zero => simp [List.getD]
      | succ j2 =>
          have := ih j2 (by simpa using hj)
          simp only [List.getD_cons_succ]
          exact List.mem_cons_of_mem x this

theorem buildFrames_length (ck mid : List Nat) :
    ∀ (chunks : List (List Nat)) (n : Nat),
      (buildFrames ck mid n chunks).length = chunks.length := by
  intro chunks
  induction chunks with
  | nil => intro n; rfl
  | cons c rest ih =>
      intro n
      cases rest with
      | nil => rfl
      | cons c2 r2 =>
          rw [buildFrames, List.length_cons, ih (n + 1)]
          simp

theorem decryptMessage_sig_mismatch (provider : List MasterKey) (msg : Message)
    (suite : AlgorithmSuite) (dk pt : List Nat)
    (hsuite : resolveSuite msg.header.suite_id = some suite)
    (hsigning : suite.signing = true)
    (hkeys : decryptDataKey provider msg.header.encrypted_data_keys = .ok dk)
    (htageq : msg.headerAuthTag
        = headerTag (deriveContentKey dk msg.header.message_id) msg.header)
    (hcon : decryptContent (deriveContentKey dk msg.header.message_id) msg.header
        msg.content = .ok pt)
    (hsigne : msg.signature ≠ messageSig msg.header msg.headerAuthTag msg.content) :
    decryptMessage provider msg = .error .signatureVerification := by
  unfold decryptMessage
  simp only [hsuite, hkeys]
  rw [if_neg (fun hc => hc htageq)]
  simp only [hcon, hsigning]
  simp [hsigne]
theorem tamper_headerTag_outcome (cfg : EncryptConfig) (mid dk p : List Nat)
    (suite : AlgorithmSuite)
    (hres : resolveSuite cfg.suite_id = some suite)
    (hdk : dk.length = suite.data_key_len)
    (hnd : (cfg.masterKeys.map mkIdent).Nodup)
    (hex : ∃ mk ∈ cfg.masterKeys, mk.deny = false)
    (i bit : Nat)
    (hi : i < (buildMsg cfg mid dk p suite).headerAuthTag.length) :
    decryptMessage cfg.masterKeys
      { buildMsg cfg mid dk p suite with
        headerAuthTag := flipAt (buildMsg cfg mid dk p suite).headerAuthTag i bit }
      = .error .headerAuthentication := by
  have hreg := suiteRegistry_bounds _ (resolveSuite_mem hres)
  have hdk32 : dk.length < 65536 := by
    have := hreg.2.2
    omega
  apply decryptMessage_header_mismatch cfg.masterKeys _ suite dk
  · show resolveSuite (buildMsg cfg mid dk p suite).header.suite_id = some suite
    simp only [buildMsg, mkHeader]
    exact hres
  · show decryptDataKey cfg.masterKeys
      (buildMsg cfg mid dk p suite).header.encrypted_data_keys = .ok dk
    simp only [buildMsg, mkHeader]
    exact decryptDataKey_wraps dk hdk32 cfg.masterKeys hnd cfg.masterKeys
      (fun z hz => hz) hex
  · show flipAt (buildMsg cfg mid dk p suite).headerAuthTag i bit
      ≠ headerTag (deriveContentKey dk mid) (buildMsg cfg mid dk p suite).header
    have hst : (buildMsg cfg mid dk p suite).headerAuthTag
        = headerTag (deriveContentKey dk mid) (buildMsg cfg mid dk p suite).header := rfl
    rw [← hst]
    exact flipAt_ne _ i bit hi

theorem tamper_header_outcome (cfg : EncryptConfig) (mid dk p : List Nat)
    (suite : AlgorithmSuite)
    (hs : sizeCheck cfg p = true) (hvf : validFieldBounds cfg = true)
    (hmid : mid.length = 16)
    (hres : resolveSuite cfg.suite_id = some suite)
    (hdk : dk.length = suite.data_key_len)
    (hdr : MessageHeader)
    (hneq : hdr ≠ (buildMsg cfg mid dk p suite).header)
    (hbnd : boundedHeader hdr = true) :
    ∃ e, decryptMessage cfg.masterKeys
        { buildMsg cfg mid dk p suite with header := hdr } = .error e ∧
      isKeyOrHeaderError e = true := by
  have hreg := suiteRegistry_bounds _ (resolveSuite_mem hres)
  have hhd : ({ buildMsg cfg mid dk p suite with header := hdr } : Message).header
      = hdr := rfl
  cases hrs : resolveSuite hdr.suite_id with
  | none =>
      refine ⟨.unsupportedSuite, ?_, rfl⟩
      unfold decryptMessage
      simp only [hhd, hrs]
  | some s2 =>
      cases hdd : decryptDataKey cfg.masterKeys hdr.encrypted_data_keys with
      | error e2 =>
          have he2 : e2 = .masterKeyProvider := decryptDataKey_error_eq hdd
          refine ⟨e2, ?_, by rw [he2]; rfl⟩
          unfold decryptMessage
          simp only [hhd, hrs, hdd]
      | ok dk2 =>
          refine ⟨.headerAuthentication, ?_, rfl⟩
          apply decryptMessage_header_mismatch cfg.masterKeys _ s2 dk2
          · rw [hhd]
            exact hrs
          · rw [hhd]
            exact hdd
          · rw [hhd]
            show (buildMsg cfg mid dk p suite).headerAuthTag
              ≠ headerTag (deriveContentKey dk2 hdr.message_id) hdr
            intro hEq
            have hst : (buildMsg cfg mid dk p suite).headerAuthTag
                = headerTag (deriveContentKey dk mid)
                    (buildMsg cfg mid dk p suite).header := rfl
            rw [hst] at hEq
            have hm16 : hdr.message_id.length = 16 := by
              unfold boundedHeader at hbnd
              simp only [Bool.and_eq_true, beq_iff_eq] at hbnd
              exact hbnd.1.1.1.1.1.2
            have hl1 : (deriveContentKey dk mid).length < 2 ^ 32 := by
              simp only [deriveContentKey, List.length_append]
              have := hreg.2.2
              have h2 : (2 : Nat) ^ 32 = 4294967296 := by norm_num
              omega
            have hl2 : (deriveContentKey dk2 hdr.message_id).length < 2 ^ 32 := by
              have := decryptDataKey_ok_len hdd
              simp only [deriveContentKey, List.length_append]
              have h2 : (2 : Nat) ^ 32 = 4294967296 := by norm_num
              omega
            have hinj := headerTag_inj hl1 hl2 hEq
            have hbmsg : boundedHeader (buildMsg cfg mid dk p suite).header = true :=
              buildMsg_boundedHeader hs hvf hmid hres hdk
            have := encodeHeader_inj hbmsg hbnd hinj.2
            exact hneq this.symm

theorem tamper_sig_outcome (cfg : EncryptConfig) (mid dk p : List Nat)
    (suite : AlgorithmSuite)
    (hres : resolveSuite cfg.suite_id = some suite)
    (hdk : dk.length = suite.data_key_len)
    (hnd : (cfg.masterKeys.map mkIdent).Nodup)
    (hex : ∃ mk ∈ cfg.masterKeys, mk.deny = false)
    (hsigning : suite.signing = true) (i bit : Nat)
    (hi : i < (buildMsg cfg mid dk p suite).signature.length) :
    decryptMessage cfg.masterKeys
      { buildMsg cfg mid dk p suite with
        signature := flipAt (buildMsg cfg mid dk p suite).signature i bit }
      = .error .signatureVerification := by
  have hreg := suiteRegistry_bounds _ (resolveSuite_mem hres)
  have hdk32 : dk.length < 65536 := by
    have := hreg.2.2
    omega
  apply decryptMessage_sig_mismatch cfg.masterKeys _ suite dk p
  · show resolveSuite (buildMsg cfg mid dk p suite).header.suite_id = some suite
    simp only [buildMsg, mkHeader]
    exact hres
  · exact hsigning
  · show decryptDataKey cfg.masterKeys
      (buildMsg cfg mid dk p suite).header.encrypted_data_keys = .ok dk
    simp only [buildMsg, mkHeader]
    exact decryptDataKey_wraps dk hdk32 cfg.masterKeys hnd cfg.masterKeys
      (fun z hz => hz) hex
  · rfl
  · show decryptContent (deriveContentKey dk
        (buildMsg cfg mid dk p suite).header.message_id)
        (buildMsg cfg mid dk p suite).header (buildMsg cfg mid dk p suite).content = .ok p
    exact decryptContent_buildMsg cfg mid dk p suite
  · show flipAt (buildMsg cfg mid dk p suite).signature i bit
      ≠ messageSig (buildMsg cfg mid dk p suite).header
          (buildMsg cfg mid dk p suite).headerAuthTag
          (buildMsg cfg mid dk p suite).content
    have hsg : (buildMsg cfg mid dk p suite).signature
        = messageSig (buildMsg cfg mid dk p suite).header
            (buildMsg cfg mid dk p suite).headerAuthTag
            (buildMsg cfg mid dk p suite).content := by
      simp [buildMsg, hsigning, messageSig, mkHeader]
    rw [← hsg]
    exact flipAt_ne _ i bit hi

theorem tamper_frames_outcome (cfg : EncryptConfig) (mid dk p : List Nat)
    (suite : AlgorithmSuite)
    (hct : cfg.content_type = ContentType.framed)
    (hres : resolveSuite cfg.suite_id = some suite)
    (hdk : dk.length = suite.data_key_len)
    (hnd : (cfg.masterKeys.map mkIdent).Nodup)
    (hex : ∃ mk ∈ cfg.masterKeys, mk.deny = false)
    (g : Frame → Frame) (j : Nat)
    (hseq : ∀ f, (g f).sequence_number = f.sequence_number)
    (hfin : ∀ f, (g f).is_final = f.is_final)
    (hlen : ∀ f, (g f).ciphertext.length = f.ciphertext.length)
    (hj : j < (splitFrames cfg.frame_length p).length)
    (hbad : (g ((buildFrames (deriveContentKey dk mid) mid 1
          (splitFrames cfg.frame_length p)).getD j default)).tag
        ≠ frameTag (deriveContentKey dk mid)
            (frameNonce mid ((buildFrames (deriveContentKey dk mid) mid 1
              (splitFrames cfg.frame_length p)).getD j default).sequence_number)
            (g ((buildFrames (deriveContentKey dk mid) mid 1
              (splitFrames cfg.frame_length p)).getD j default)).ciphertext) :
    decryptMessage cfg.masterKeys
      { buildMsg cfg mid dk p suite with
        content := MessageContent.framed (modifyAt
          (buildFrames (deriveContentKey dk mid) mid 1 (splitFrames cfg.frame_length p))
          j g) }
      = .error .ciphertextAuthentication := by
  apply decryptMessage_replaceContent cfg mid dk p suite hres hdk hnd hex
  have hct2 : (buildMsg cfg mid dk p suite).header.content_type = ContentType.framed := by
    simp [buildMsg, mkHeader, hct]
  have hfl : (buildMsg cfg mid dk p suite).header.frame_length = cfg.frame_length := by
    simp [buildMsg, mkHeader, headerFrameLength, hct]
  have hmid2 : (buildMsg cfg mid dk p suite).header.message_id = mid := rfl
  unfold decryptContent
  rw [hct2, hmid2, hfl]
  show Except.map List.flatten (decryptFrames (deriveContentKey dk mid) mid
    cfg.frame_length 1 (modifyAt (buildFrames (deriveContentKey dk mid) mid 1
      (splitFrames cfg.frame_length p)) j g)) = .error .ciphertextAuthentication
  rw [decryptFrames_tamper (deriveContentKey dk mid) mid cfg.frame_length g hseq hfin hlen
    (splitFrames cfg.frame_length p) 1 j (splitFrames_ne_nil _ _)
    (splitFrames_dropLast_len _ _) hj hbad]
  rfl
theorem tamper_block_outcome (cfg : EncryptConfig) (mid dk p : List Nat)
    (suite : AlgorithmSuite)
    (hct : cfg.content_type = ContentType.nonFramed)
    (hres : resolveSuite cfg.suite_id = some suite)
    (hdk : dk.length = suite.data_key_len)
    (hnd : (cfg.masterKeys.map mkIdent).Nodup)
    (hex : ∃ mk ∈ cfg.masterKeys, mk.deny = false)
    (g : Block → Block)
    (hbad : (g (mkBlock (deriveContentKey dk mid) mid p)).tag
        ≠ frameTag (deriveContentKey dk mid) (nonFramedNonce mid)
            (g (mkBlock (deriveContentKey dk mid) mid p)).ciphertext) :
    decryptMessage cfg.masterKeys
      { buildMsg cfg mid dk p suite with
        content := MessageContent.nonFramed (g (mkBlock (deriveContentKey dk mid) mid p)) }
      = .error .ciphertextAuthentication := by
  apply decryptMessage_replaceContent cfg mid dk p suite hres hdk hnd hex
  have hct2 : (buildMsg cfg mid dk p suite).header.content_type
      = ContentType.nonFramed := by
    simp [buildMsg, mkHeader, hct]
  have hmid2 : (buildMsg cfg mid dk p suite).header.message_id = mid := rfl
  unfold decryptContent
  rw [hct2, hmid2]
  show decryptBlock (deriveContentKey dk mid) mid
    (g (mkBlock (deriveContentKey dk mid) mid p)) = .error .ciphertextAuthentication
  simp only [decryptBlock]
  rw [if_pos hbad]

/-- C2 (amended): for every message produced by encrypt and every applicable
single-bit (or header-field) modification, decryption fails and never
returns plaintext as a successful result: a modification of the body
ciphertext or of a body authentication tag — a frame's or the NonFramed
block's — fails with `CiphertextAuthenticationError`, of the header
authentication tag with `HeaderAuthenticationError`, of the trailer
signature with `SignatureVerificationError`; a modification inside the
header fails with `HeaderAuthenticationError` — or with
`MasterKeyProviderError` or `UnsupportedSuiteError` when the modified
region is consulted while resolving the suite or recovering the data key,
which necessarily happens before the header tag (computed with the content
key) can be verified. -/
theorem c2_tamper_rejection (cfg : EncryptConfig) (mid dk p : List Nat) (t : Tamper)
    (hnd : (cfg.masterKeys.map mkIdent).Nodup)
    (hex : ∃ mk ∈ cfg.masterKeys, mk.deny = false)
    (hv : (encryptMessage cfg mid dk p).map (Tamper.validB t) = .ok true) :
    (encryptMessage cfg mid dk p).map
      (fun msg => tamperOutcomeB cfg.masterKeys msg t) = .ok true := by
  cases henc : encryptMessage cfg mid dk p with
  | error e =>
      rw [henc] at hv
      exact absurd hv (by simp [Except.map])
  | ok msg =>
      rw [henc] at hv
      have hvB : Tamper.validB t msg = true := by
        simpa [Except.map] using hv
      show Except.ok (tamperOutcomeB cfg.masterKeys msg t) = Except.ok true
      rw [Except.ok.injEq]
      rcases (encryptMessage_ok_iff cfg mid dk p msg).mp henc with
        ⟨hs, hvf, hmid, suite, hres, hdk, hnemp, hmsg⟩
      subst hmsg
      cases t with
      | replaceHeader hdr =>
          simp only [Tamper.validB, Bool.and_eq_true, decide_eq_true_eq] at hvB
          obtain ⟨hneq, hbnd⟩ := hvB
          obtain ⟨e, he, hke⟩ := tamper_header_outcome cfg mid dk p suite hs hvf hmid
            hres hdk hdr hneq hbnd
          unfold tamperOutcomeB
          simp only [Tamper.apply] at he ⊢
          simp only [he]
          exact hke
      | headerTagBit i bit =>
          simp only [Tamper.validB, decide_eq_true_eq] at hvB
          unfold tamperOutcomeB
          exact decide_eq_true
            (tamper_headerTag_outcome cfg mid dk p suite hres hdk hnd hex i bit hvB)
      | signatureBit i bit =>
          simp only [Tamper.validB, decide_eq_true_eq] at hvB
          cases hsig : suite.signing with
          | false =>
              exfalso
              have hempty : (buildMsg cfg mid dk p suite).signature = [] := by
                simp [buildMsg, hsig]
              rw [hempty] at hvB
              simp at hvB
          | true =>
              unfold tamperOutcomeB
              exact decide_eq_true
                (tamper_sig_outcome cfg mid dk p suite hres hdk hnd hex hsig i bit hvB)
      | frameCiphertextBit j i bit =>
          cases hct : cfg.content_type with
          | nonFramed =>
              exfalso
              have hcon : (buildMsg cfg mid dk p suite).content
                  = MessageContent.nonFramed (mkBlock (deriveContentKey dk mid) mid p) := by
                simp [buildMsg, hct]
              simp only [Tamper.validB, hcon] at hvB
              simp at hvB
          | framed =>
              have hcon : (buildMsg cfg mid dk p suite).content
                  = MessageContent.framed (buildFrames (deriveContentKey dk mid) mid 1
                      (splitFrames cfg.frame_length p)) := by
                simp [buildMsg, hct]
              simp only [Tamper.validB, hcon, Bool.and_eq_true, decide_eq_true_eq] at hvB
              obtain ⟨hj, hi⟩ := hvB
              rw [buildFrames_length] at hj
              unfold tamperOutcomeB
              apply decide_eq_true
              have happ : (Tamper.frameCiphertextBit j i bit).apply
                    (buildMsg cfg mid dk p suite)
                  = { buildMsg cfg mid dk p suite with
                      content := MessageContent.framed (modifyAt
                        (buildFrames (deriveContentKey dk mid) mid 1
                          (splitFrames cfg.frame_length p)) j
                        (fun f => { f with ciphertext := flipAt f.ciphertext i bit })) } := by
                simp only [Tamper.apply, hcon]
              rw [happ]
              apply tamper_frames_outcome cfg mid dk p suite hct hres hdk hnd hex
                (fun f => { f with ciphertext := flipAt f.ciphertext i bit }) j
                (fun f => rfl) (fun f => rfl) (fun f => flipAt_length _ _ _) hj
              have hmem : (buildFrames (deriveContentKey dk mid) mid 1
                    (splitFrames cfg.frame_length p)).getD j default
                  ∈ buildFrames (deriveContentKey dk mid) mid 1
                      (splitFrames cfg.frame_length p) :=
                getD_mem _ j (by rw [buildFrames_length]; exact hj)
              have htagfj := buildFrames_tag_det (deriveContentKey dk mid) mid _ 1 _ hmem
              intro hEq
              rw [htagfj] at hEq
              have hinj := frameTag_inj_ct hEq
              exact absurd hinj.symm (flipAt_ne _ i bit hi)
      | frameTagBit j i bit =>
          cases hct : cfg.content_type with
          | nonFramed =>
              exfalso
              have hcon : (buildMsg cfg mid dk p suite).content
                  = MessageContent.nonFramed (mkBlock (deriveContentKey dk mid) mid p) := by
                simp [buildMsg, hct]
              simp only [Tamper.validB, hcon] at hvB
              simp at hvB
          | framed =>
              have hcon : (buildMsg cfg mid dk p suite).content
                  = MessageContent.framed (buildFrames (deriveContentKey dk mid) mid 1
                      (splitFrames cfg.frame_length p)) := by
                simp [buildMsg, hct]
              simp only [Tamper.validB, hcon, Bool.and_eq_true, decide_eq_true_eq] at hvB
              obtain ⟨hj, hi⟩ := hvB
              rw [buildFrames_length] at hj
              unfold tamperOutcomeB
              apply decide_eq_true
              have happ : (Tamper.frameTagBit j i bit).apply (buildMsg cfg mid dk p suite)
                  = { buildMsg cfg mid dk p suite with
                      content := MessageContent.framed (modifyAt
                        (buildFrames (deriveContentKey dk mid) mid 1
                          (splitFrames cfg.frame_length p)) j
                        (fun f => { f with tag := flipAt f.tag i bit })) } := by
                simp only [Tamper.apply, hcon]
              rw [happ]
              apply tamper_frames_outcome cfg mid dk p suite hct hres hdk hnd hex
                (fun f => { f with tag := flipAt f.tag i bit }) j
                (fun f => rfl) (fun f => rfl) (fun f => rfl) hj
              have hmem : (buildFrames (deriveContentKey dk mid) mid 1
                    (splitFrames cfg.frame_length p)).getD j default
                  ∈ buildFrames (deriveContentKey dk mid) mid 1
                      (splitFrames cfg.frame_length p) :=
                getD_mem _ j (by rw [buildFrames_length]; exact hj)
              have htagfj := buildFrames_tag_det (deriveContentKey dk mid) mid _ 1 _ hmem
              intro hEq
              rw [← htagfj] at hEq
              exact absurd hEq (flipAt_ne _ i bit hi)
      | blockCiphertextBit i bit =>
          cases hct : cfg.content_type with
          | framed =>
              exfalso
              have hcon : (buildMsg cfg mid dk p suite).content
                  = MessageContent.framed (buildFrames (deriveContentKey dk mid) mid 1
                      (splitFrames cfg.frame_length p)) := by
                simp [buildMsg, hct]
              simp only [Tamper.validB, hcon] at hvB
              simp at hvB
          | nonFramed =>
              have hcon : (buildMsg cfg mid dk p suite).content
                  = MessageContent.nonFramed (mkBlock (deriveContentKey dk mid) mid p) := by
                simp [buildMsg, hct]
              simp only [Tamper.validB, hcon, decide_eq_true_eq] at hvB
              unfold tamperOutcomeB
              apply decide_eq_true
              have happ : (Tamper.blockCiphertextBit i bit).apply
                    (buildMsg cfg mid dk p suite)
                  = { buildMsg cfg mid dk p suite with
                      content := MessageContent.nonFramed
                        { mkBlock (deriveContentKey dk mid) mid p with
                          ciphertext := flipAt
                            (mkBlock (deriveContentKey dk mid) mid p).ciphertext i bit } } := by
                simp only [Tamper.apply, hcon]
              rw [happ]
              apply tamper_block_outcome cfg mid dk p suite hct hres hdk hnd hex
                (fun b => { b with ciphertext := flipAt b.ciphertext i bit })
              intro hEq
              have htg : (mkBlock (deriveContentKey dk mid) mid p).tag
                  = frameTag (deriveContentKey dk mid) (nonFramedNonce mid)
                      (mkBlock (deriveContentKey dk mid) mid p).ciphertext := rfl
              rw [htg] at hEq
              have hinj := frameTag_inj_ct hEq
              exact absurd hinj.symm (flipAt_ne _ i bit hvB)
      | blockTagBit i bit =>
          cases hct : cfg.content_type with
          | framed =>
              exfalso
              have hcon : (buildMsg cfg mid dk p suite).content
                  = MessageContent.framed (buildFrames (deriveContentKey dk mid) mid 1
                      (splitFrames cfg.frame_length p)) := by
                simp [buildMsg, hct]
              simp only [Tamper.validB, hcon] at hvB
              simp at hvB
          | nonFramed =>
              have hcon : (buildMsg cfg mid dk p suite).content
                  = MessageContent.nonFramed (mkBlock (deriveContentKey dk mid) mid p) := by
                simp [buildMsg, hct]
              simp only [Tamper.validB, hcon, decide_eq_true_eq] at hvB
              unfold tamperOutcomeB
              apply decide_eq_true
              have happ : (Tamper.blockTagBit i bit).apply (buildMsg cfg mid dk p suite)
                  = { buildMsg cfg mid dk p suite with
                      content := MessageContent.nonFramed
                        { mkBlock (deriveContentKey dk mid) mid p with
                          tag := flipAt
                            (mkBlock (deriveContentKey dk mid) mid p).tag i bit } } := by
                simp only [Tamper.apply, hcon]
              rw [happ]
              apply tamper_block_outcome cfg mid dk p suite hct hres hdk hnd hex
                (fun b => { b with tag := flipAt b.tag i bit })
              intro hEq
              have htg : (mkBlock (deriveContentKey dk mid) mid p).tag
                  = frameTag (deriveContentKey dk mid) (nonFramedNonce mid)
                      (mkBlock (deriveContentKey dk mid) mid p).ciphertext := rfl
              rw [← htg] at hEq
              exact absurd hEq (flipAt_ne _ i bit hvB)
def suiteA : AlgorithmSuite := ⟨20, 16, false⟩
def msgA : Message := buildMsg cfgA mid16 dk16 [1, 2, 3] suiteA
def edkA : EncryptedDataKey := encryptDataKey mkA dk16

/-- A single-bit modification inside the header: bit 0 of byte 2 of the
wrapped-data-key bytes of the (only) EncryptedDataKey entry. -/
def hdrBad : MessageHeader :=
  { msgA.header with
    encrypted_data_keys := [{ edkA with encrypted_key := flipAt edkA.encrypted_key 2 0 }] }

theorem c2_tamper_counterexample :
    encryptMessage cfgA mid16 dk16 [1, 2, 3] = .ok msgA ∧
      (Tamper.replaceHeader hdrBad).validB msgA = true ∧
      decryptMessage cfgA.masterKeys ((Tamper.replaceHeader hdrBad).apply msgA)
        = .error .masterKeyProvider ∧
      isAuthVerificationError .masterKeyProvider = false :=
  ⟨rfl, by decide, by decide, rfl⟩

def cfgNF : EncryptConfig := ⟨[mkA], 20, ContentType.nonFramed, 0, []⟩

theorem c2_tamper_witness :
    (cfgA.masterKeys.map mkIdent).Nodup ∧
      (∃ mk ∈ cfgA.masterKeys, mk.deny = false) ∧
      (encryptMessage cfgA mid16 dk16 [1, 2, 3]).map
        ((Tamper.headerTagBit 0 0).validB) = .ok true ∧
      (encryptMessage cfgA mid16 dk16 [1, 2, 3]).map
        (fun msg => tamperOutcomeB cfgA.masterKeys msg (Tamper.headerTagBit 0 0))
        = .ok true ∧
      (encryptMessage cfgNF mid16 dk16 [1, 2, 3]).map
        ((Tamper.blockTagBit 0 0).validB) = .ok true ∧
      (encryptMessage cfgNF mid16 dk16 [1, 2, 3]).map
        (fun msg => tamperOutcomeB cfgNF.masterKeys msg (Tamper.blockTagBit 0 0))
        = .ok true ∧
      (encryptMessage cfgNF mid16 dk16 [1, 2, 3]).map
        ((Tamper.blockCiphertextBit 0 0).validB) = .ok true ∧
      (encryptMessage cfgNF mid16 dk16 [1, 2, 3]).map
        (fun msg => tamperOutcomeB cfgNF.masterKeys msg (Tamper.blockCiphertextBit 0 0))
        = .ok true :=
  ⟨by decide, by decide, by decide,
    c2_tamper_rejection cfgA mid16 dk16 [1, 2, 3] (Tamper.headerTagBit 0 0)
      (by decide) (by decide) (by decide),
    by decide,
    c2_tamper_rejection cfgNF mid16 dk16 [1, 2, 3] (Tamper.blockTagBit 0 0)
      (by decide) (by decide) (by decide),
    by decide,
    c2_tamper_rejection cfgNF mid16 dk16 [1, 2, 3] (Tamper.blockCiphertextBit 0 0)
      (by decide) (by decide) (by decide)⟩

end AwsEncryptionSdk
